import Mathlib

/-!
A formal model of the `bytestreams` crate.

This file gives a shallow embedding of the stream adapters of the
`bytestreams` repository (status protocol, `SliceReader`, `StdReader`,
`Utf8Reader`, `TextReader`, `StdWriter`, `Utf8Writer`, `TextWriter`) and
proves properties of the embedded code.

Machine bytes are modelled as `Nat` (values `< 256` in practice), byte
buffers as `List Nat`, and Rust's `str` values as `List Char`.  Fallible
operations return an `Except` value together with the post-call state.
-/

/-- `Readiness` from `src/status.rs`: whether an open stream is ready or in
a temporary lull. -/
inductive Readiness where
  | ready : Readiness
  | lull : Readiness
deriving DecidableEq

/-- `Status` from `src/status.rs`: a stream is open (with a readiness) or
has ended. -/
inductive Status where
  | opened : Readiness → Status
  | ended : Status
deriving DecidableEq

namespace Status

/-- `Status::ready()` from `src/status.rs`. -/
def ready : Status := .opened .ready

/-- `Status::ready_or_not(ready)` from `src/status.rs`. -/
def readyOrNot (r : Bool) : Status := if r then .opened .ready else .ended

/-- `Status::is_end()` from `src/status.rs`. -/
def isEnd (s : Status) : Bool := s = .ended

end Status

/-- `ReadOutcome` from `src/read.rs`: a byte count and a stream status. -/
structure ReadOutcome where
  size : Nat
  status : Status
deriving DecidableEq

namespace ReadOutcome

/-- `ReadOutcome::ready(size)` from `src/read.rs`. -/
def ready (size : Nat) : ReadOutcome := ⟨size, Status.ready⟩

/-- `ReadOutcome::readyOrNot(size, ready)` from `src/read.rs`. -/
def readyOrNot (size : Nat) (r : Bool) : ReadOutcome := ⟨size, Status.readyOrNot r⟩

/-- `ReadOutcome::end(size)` from `src/read.rs`. -/
def atEnd (size : Nat) : ReadOutcome := ⟨size, .ended⟩

/-- `ReadOutcome::lull(size)` from `src/read.rs`. -/
def lull (size : Nat) : ReadOutcome := ⟨size, .opened .lull⟩

end ReadOutcome

deriving instance DecidableEq for Except

/-- The error kinds the embedded code distinguishes (`std::io::ErrorKind`
values actually used by the sources). -/
inductive IoErr where
  | invalidInput : IoErr
  | other : IoErr
  | interrupted : IoErr
  | unexpectedEof : IoErr
  | writeZero : IoErr
  | panicked : IoErr
deriving DecidableEq

/-! ## UTF-8 validation, Rust style

`str::from_utf8` reports, for an invalid input, `valid_up_to` and an
optional `error_len`; `error_len = None` means the input ends with an
incomplete (but so far well-formed) sequence.  `error_len = Some n`
consumes a maximal subpart of length `n`.  `seqCheck` classifies the
sequence at the head of a byte list exactly as Rust's
`core::str::validations::run_utf8_validation` does. -/

/-- Classification of the byte sequence at the head of a list. -/
inductive SeqResult where
  | valid : Nat → SeqResult
  | invalid : Nat → SeqResult
  | incomplete : SeqResult
deriving DecidableEq

/-- Is `b` a UTF-8 continuation byte (`0x80..=0xBF`)? -/
def isCont (b : Nat) : Bool := 0x80 ≤ b && b ≤ 0xBF

/-- First-continuation range check for a three-byte lead `b`
(`0xE0..=0xEF`), as in Rust's validation (specials for `0xE0`/`0xED`). -/
def cont3a (b b1 : Nat) : Bool :=
  if b = 0xE0 then decide (0xA0 ≤ b1) && decide (b1 ≤ 0xBF)
  else if b = 0xED then decide (0x80 ≤ b1) && decide (b1 ≤ 0x9F)
  else isCont b1

/-- First-continuation range check for a four-byte lead `b`
(`0xF0..=0xF4`), as in Rust's validation (specials for `0xF0`/`0xF4`). -/
def cont4a (b b1 : Nat) : Bool :=
  if b = 0xF0 then decide (0x90 ≤ b1) && decide (b1 ≤ 0xBF)
  else if b = 0xF4 then decide (0x80 ≤ b1) && decide (b1 ≤ 0x8F)
  else isCont b1

/-- Continuations of a two-byte sequence with lead `b`. -/
def seq2 : List Nat → SeqResult
  | [] => .incomplete
  | b1 :: _ => if isCont b1 then .valid 2 else .invalid 1

/-- Continuations of a three-byte sequence with lead `b`. -/
def seq3 (b : Nat) : List Nat → SeqResult
  | [] => .incomplete
  | [b1] => if cont3a b b1 then .incomplete else .invalid 1
  | b1 :: b2 :: _ =>
      if cont3a b b1 then (if isCont b2 then .valid 3 else .invalid 2)
      else .invalid 1

/-- Continuations of a four-byte sequence with lead `b`. -/
def seq4 (b : Nat) : List Nat → SeqResult
  | [] => .incomplete
  | [b1] => if cont4a b b1 then .incomplete else .invalid 1
  | [b1, b2] =>
      if cont4a b b1 then (if isCont b2 then .incomplete else .invalid 2)
      else .invalid 1
  | b1 :: b2 :: b3 :: _ =>
      if cont4a b b1 then
        (if isCont b2 then (if isCont b3 then .valid 4 else .invalid 3)
         else .invalid 2)
      else .invalid 1

/-- Head-sequence classification following Rust's UTF-8 validation:
returns the length of the valid scalar encoding at the front, or the
length of the maximal invalid subpart, or `incomplete` when the list ends
inside a so-far-well-formed sequence. -/
def seqCheck : List Nat → SeqResult
  | [] => .incomplete
  | b :: rest =>
    if b < 0x80 then .valid 1
    else if b < 0xC2 then .invalid 1
    else if b < 0xE0 then seq2 rest
    else if b < 0xF0 then seq3 b rest
    else if b < 0xF5 then seq4 b rest
    else .invalid 1

theorem seq2_valid_pos {r : List Nat} {n : Nat} (h : seq2 r = .valid n) :
    n = 2 ∧ 1 ≤ r.length := by
  match r with
  | [] => simp [seq2] at h
  | b1 :: t => simp only [seq2] at h; split at h <;> simp_all

theorem seq3_valid_pos {b : Nat} {r : List Nat} {n : Nat} (h : seq3 b r = .valid n) :
    n = 3 ∧ 2 ≤ r.length := by
  match r with
  | [] => simp [seq3] at h
  | [b1] => simp only [seq3] at h; split at h <;> simp_all
  | b1 :: b2 :: t =>
    simp only [seq3] at h
    split at h <;> [skip; simp_all]
    split at h <;> simp_all

theorem seq4_valid_pos {b : Nat} {r : List Nat} {n : Nat} (h : seq4 b r = .valid n) :
    n = 4 ∧ 3 ≤ r.length := by
  match r with
  | [] => simp [seq4] at h
  | [b1] => simp only [seq4] at h; split at h <;> simp_all
  | [b1, b2] =>
    simp only [seq4] at h
    split at h <;> [skip; simp_all]
    split at h <;> simp_all
  | b1 :: b2 :: b3 :: t =>
    simp only [seq4] at h
    split at h <;> [skip; simp_all]
    split at h <;> [skip; simp_all]
    split at h <;> simp_all

theorem seq2_invalid_pos {r : List Nat} {n : Nat} (h : seq2 r = .invalid n) :
    n = 1 ∧ 1 ≤ r.length := by
  match r with
  | [] => simp [seq2] at h
  | b1 :: t => simp only [seq2] at h; split at h <;> simp_all

theorem seq3_invalid_pos {b : Nat} {r : List Nat} {n : Nat} (h : seq3 b r = .invalid n) :
    1 ≤ n ∧ n ≤ r.length := by
  match r with
  | [] => simp [seq3] at h
  | [b1] => simp only [seq3] at h; split at h <;> simp_all
  | b1 :: b2 :: t =>
    simp only [seq3] at h
    split at h
    · split at h <;> simp_all <;> omega
    · simp_all <;> omega

theorem seq4_invalid_pos {b : Nat} {r : List Nat} {n : Nat} (h : seq4 b r = .invalid n) :
    1 ≤ n ∧ n ≤ r.length := by
  match r with
  | [] => simp [seq4] at h
  | [b1] => simp only [seq4] at h; split at h <;> simp_all
  | [b1, b2] =>
    simp only [seq4] at h
    split at h
    · split at h <;> simp_all <;> omega
    · simp_all
  | b1 :: b2 :: b3 :: t =>
    simp only [seq4] at h
    split at h
    · split at h
      · split at h <;> simp_all <;> omega
      · simp_all <;> omega
    · simp_all <;> omega

theorem seqCheck_valid_pos {l : List Nat} {n : Nat} (h : seqCheck l = .valid n) :
    1 ≤ n ∧ n ≤ l.length := by
  match l with
  | [] => simp [seqCheck] at h
  | b :: rest =>
    simp only [seqCheck] at h
    split at h
    · cases h; simp
    · split at h
      · cases h
      · split at h
        · have := seq2_valid_pos h; simp; omega
        · split at h
          · have := seq3_valid_pos h; simp; omega
          · split at h
            · have := seq4_valid_pos h; simp; omega
            · cases h

theorem seqCheck_invalid_pos {l : List Nat} {n : Nat} (h : seqCheck l = .invalid n) :
    1 ≤ n ∧ n ≤ l.length := by
  match l with
  | [] => simp [seqCheck] at h
  | b :: rest =>
    simp only [seqCheck] at h
    split at h
    · cases h
    · split at h
      · cases h; simp
      · split at h
        · have := seq2_invalid_pos h; simp; omega
        · split at h
          · have := seq3_invalid_pos h; simp; omega
          · split at h
            · have := seq4_invalid_pos h; simp; omega
            · cases h; simp

/-- Fueled worker for `utf8Validate`; one head sequence is consumed per
unit of fuel, so any fuel of at least the list length gives the true
value. -/
def utf8ValidateF : Nat → List Nat → Option (Nat × Option Nat)
  | _, [] => none
  | 0, _ :: _ => none
  | fuel + 1, b :: rest =>
    match seqCheck (b :: rest) with
    | .valid n =>
      match utf8ValidateF fuel ((b :: rest).drop n) with
      | none => none
      | some (v, e) => some (n + v, e)
    | .invalid n => some (0, some n)
    | .incomplete => some (0, none)

theorem utf8ValidateF_irrel :
    ∀ (f f' : Nat) (l : List Nat), l.length ≤ f → l.length ≤ f' →
      utf8ValidateF f l = utf8ValidateF f' l := by
  intro f
  induction f with
  | zero =>
    intro f' l hf _
    have : l = [] := List.length_eq_zero.mp (Nat.le_zero.mp hf)
    subst this
    cases f' <;> simp [utf8ValidateF]
  | succ f ih =>
    intro f' l hf hf'
    match l with
    | [] => cases f' <;> simp [utf8ValidateF]
    | b :: rest =>
      match f' with
      | 0 => simp at hf'
      | f' + 1 =>
        cases hsc : seqCheck (b :: rest) with
        | valid n =>
          simp only [utf8ValidateF, hsc]
          have hn := seqCheck_valid_pos hsc
          simp only [List.length_cons] at hf hf' hn
          rw [ih f' ((b :: rest).drop n)
            (by simp only [List.length_drop, List.length_cons]; omega)
            (by simp only [List.length_drop, List.length_cons]; omega)]
        | invalid n => simp only [utf8ValidateF, hsc]
        | incomplete => simp only [utf8ValidateF, hsc]

/-- `str::from_utf8` as the pair `(valid_up_to, error_len)`; `none` means
the whole list is valid UTF-8. -/
def utf8Validate (l : List Nat) : Option (Nat × Option Nat) :=
  utf8ValidateF l.length l

/-- The UTF-8 encoding of U+FFFD (REPLACEMENT CHARACTER). -/
def replBytes : List Nat := [0xEF, 0xBF, 0xBD]

/-- Fueled worker for `lossyBytes`. -/
def lossyBytesF : Nat → List Nat → List Nat
  | _, [] => []
  | 0, _ :: _ => []
  | fuel + 1, b :: rest =>
    match seqCheck (b :: rest) with
    | .valid n => (b :: rest).take n ++ lossyBytesF fuel ((b :: rest).drop n)
    | .invalid n => replBytes ++ lossyBytesF fuel ((b :: rest).drop n)
    | .incomplete => replBytes

theorem lossyBytesF_irrel :
    ∀ (f f' : Nat) (l : List Nat), l.length ≤ f → l.length ≤ f' →
      lossyBytesF f l = lossyBytesF f' l := by
  intro f
  induction f with
  | zero =>
    intro f' l hf _
    have : l = [] := List.length_eq_zero.mp (Nat.le_zero.mp hf)
    subst this
    cases f' <;> simp [lossyBytesF]
  | succ f ih =>
    intro f' l hf hf'
    match l with
    | [] => cases f' <;> simp [lossyBytesF]
    | b :: rest =>
      match f' with
      | 0 => simp at hf'
      | f' + 1 =>
        cases hsc : seqCheck (b :: rest) with
        | valid n =>
          simp only [lossyBytesF, hsc]
          have hn := seqCheck_valid_pos hsc
          simp only [List.length_cons] at hf hf' hn
          rw [ih f' ((b :: rest).drop n)
            (by simp only [List.length_drop, List.length_cons]; omega)
            (by simp only [List.length_drop, List.length_cons]; omega)]
        | invalid n =>
          simp only [lossyBytesF, hsc]
          have hn := seqCheck_invalid_pos hsc
          simp only [List.length_cons] at hf hf' hn
          rw [ih f' ((b :: rest).drop n)
            (by simp only [List.length_drop, List.length_cons]; omega)
            (by simp only [List.length_drop, List.length_cons]; omega)]
        | incomplete => simp only [lossyBytesF, hsc]

/-- The byte-level lossy UTF-8 decoding (`String::from_utf8_lossy`
re-encoded): valid sequences are kept verbatim, maximal invalid subparts
and a trailing incomplete sequence become U+FFFD. -/
def lossyBytes (l : List Nat) : List Nat :=
  lossyBytesF l.length l

/-- Scalar value of a single valid UTF-8 sequence (given as its byte
list). -/
def decodeScalarNat : List Nat → Nat
  | [b] => b
  | [b, b1] => (b - 0xC0) * 0x40 + (b1 - 0x80)
  | [b, b1, b2] => (b - 0xE0) * 0x1000 + (b1 - 0x80) * 0x40 + (b2 - 0x80)
  | [b, b1, b2, b3] =>
      (b - 0xF0) * 0x40000 + (b1 - 0x80) * 0x1000 + (b2 - 0x80) * 0x40 + (b3 - 0x80)
  | _ => 0

/-- Fueled worker for `charsOfBytes`. -/
def charsOfBytesF : Nat → List Nat → List Char
  | _, [] => []
  | 0, _ :: _ => []
  | fuel + 1, b :: rest =>
    match seqCheck (b :: rest) with
    | .valid n =>
        Char.ofNat (decodeScalarNat ((b :: rest).take n)) :: charsOfBytesF fuel ((b :: rest).drop n)
    | .invalid n => Char.ofNat 0xFFFD :: charsOfBytesF fuel ((b :: rest).drop n)
    | .incomplete => [Char.ofNat 0xFFFD]

theorem charsOfBytesF_irrel :
    ∀ (f f' : Nat) (l : List Nat), l.length ≤ f → l.length ≤ f' →
      charsOfBytesF f l = charsOfBytesF f' l := by
  intro f
  induction f with
  | zero =>
    intro f' l hf _
    have : l = [] := List.length_eq_zero.mp (Nat.le_zero.mp hf)
    subst this
    cases f' <;> simp [charsOfBytesF]
  | succ f ih =>
    intro f' l hf hf'
    match l with
    | [] => cases f' <;> simp [charsOfBytesF]
    | b :: rest =>
      match f' with
      | 0 => simp at hf'
      | f' + 1 =>
        cases hsc : seqCheck (b :: rest) with
        | valid n =>
          simp only [charsOfBytesF, hsc]
          have hn := seqCheck_valid_pos hsc
          simp only [List.length_cons] at hf hf' hn
          rw [ih f' ((b :: rest).drop n)
            (by simp only [List.length_drop, List.length_cons]; omega)
            (by simp only [List.length_drop, List.length_cons]; omega)]
        | invalid n =>
          simp only [charsOfBytesF, hsc]
          have hn := seqCheck_invalid_pos hsc
          simp only [List.length_cons] at hf hf' hn
          rw [ih f' ((b :: rest).drop n)
            (by simp only [List.length_drop, List.length_cons]; omega)
            (by simp only [List.length_drop, List.length_cons]; omega)]
        | incomplete => simp only [charsOfBytesF, hsc]

/-- Character-level lossy UTF-8 decoding, same structure as
`lossyBytes`.  On valid input this is exactly `str::from_utf8` followed
by `.chars()`. -/
def charsOfBytes (l : List Nat) : List Char :=
  charsOfBytesF l.length l

/-- `char::encode_utf8` on the scalar value of `c`. -/
def utf8EncodeChar (c : Char) : List Nat :=
  let n := c.toNat
  if n < 0x80 then [n]
  else if n < 0x800 then [0xC0 + n / 0x40, 0x80 + n % 0x40]
  else if n < 0x10000 then
    [0xE0 + n / 0x1000, 0x80 + (n / 0x40) % 0x40, 0x80 + n % 0x40]
  else
    [0xF0 + n / 0x40000, 0x80 + (n / 0x1000) % 0x40, 0x80 + (n / 0x40) % 0x40, 0x80 + n % 0x40]

/-- UTF-8 encoding of a character list (`str::as_bytes`). -/
def utf8EncodeList (l : List Char) : List Nat := (l.map utf8EncodeChar).flatten

theorem utf8EncodeChar_length_pos (c : Char) : 1 ≤ (utf8EncodeChar c).length := by
  simp only [utf8EncodeChar]
  split <;> [simp; skip]
  split <;> [simp; skip]
  split <;> simp

theorem utf8Validate_step (b : Nat) (rest : List Nat) :
    utf8Validate (b :: rest) =
      match seqCheck (b :: rest) with
      | .valid n =>
        (match utf8Validate ((b :: rest).drop n) with
         | none => none
         | some (v, e) => some (n + v, e))
      | .invalid n => some (0, some n)
      | .incomplete => some (0, none) := by
  show utf8ValidateF (rest.length + 1) (b :: rest) = _
  cases hsc : seqCheck (b :: rest) with
  | valid n =>
    simp only [utf8ValidateF, hsc]
    have hn := seqCheck_valid_pos hsc
    simp only [List.length_cons] at hn
    rw [utf8ValidateF_irrel rest.length ((b :: rest).drop n).length ((b :: rest).drop n)
      (by simp only [List.length_drop, List.length_cons]; omega) (Nat.le_refl _)]
    rfl
  | invalid n => simp only [utf8ValidateF, hsc]
  | incomplete => simp only [utf8ValidateF, hsc]

theorem lossyBytes_step (b : Nat) (rest : List Nat) :
    lossyBytes (b :: rest) =
      match seqCheck (b :: rest) with
      | .valid n => (b :: rest).take n ++ lossyBytes ((b :: rest).drop n)
      | .invalid n => replBytes ++ lossyBytes ((b :: rest).drop n)
      | .incomplete => replBytes := by
  show lossyBytesF (rest.length + 1) (b :: rest) = _
  cases hsc : seqCheck (b :: rest) with
  | valid n =>
    simp only [lossyBytesF, hsc]
    have hn := seqCheck_valid_pos hsc
    simp only [List.length_cons] at hn
    rw [lossyBytesF_irrel rest.length ((b :: rest).drop n).length ((b :: rest).drop n)
      (by simp only [List.length_drop, List.length_cons]; omega) (Nat.le_refl _)]
    rfl
  | invalid n =>
    simp only [lossyBytesF, hsc]
    have hn := seqCheck_invalid_pos hsc
    simp only [List.length_cons] at hn
    rw [lossyBytesF_irrel rest.length ((b :: rest).drop n).length ((b :: rest).drop n)
      (by simp only [List.length_drop, List.length_cons]; omega) (Nat.le_refl _)]
    rfl
  | incomplete => simp only [lossyBytesF, hsc]

theorem charsOfBytes_step (b : Nat) (rest : List Nat) :
    charsOfBytes (b :: rest) =
      match seqCheck (b :: rest) with
      | .valid n =>
          Char.ofNat (decodeScalarNat ((b :: rest).take n)) :: charsOfBytes ((b :: rest).drop n)
      | .invalid n => Char.ofNat 0xFFFD :: charsOfBytes ((b :: rest).drop n)
      | .incomplete => [Char.ofNat 0xFFFD] := by
  show charsOfBytesF (rest.length + 1) (b :: rest) = _
  cases hsc : seqCheck (b :: rest) with
  | valid n =>
    simp only [charsOfBytesF, hsc]
    have hn := seqCheck_valid_pos hsc
    simp only [List.length_cons] at hn
    rw [charsOfBytesF_irrel rest.length ((b :: rest).drop n).length ((b :: rest).drop n)
      (by simp only [List.length_drop, List.length_cons]; omega) (Nat.le_refl _)]
    rfl
  | invalid n =>
    simp only [charsOfBytesF, hsc]
    have hn := seqCheck_invalid_pos hsc
    simp only [List.length_cons] at hn
    rw [charsOfBytesF_irrel rest.length ((b :: rest).drop n).length ((b :: rest).drop n)
      (by simp only [List.length_drop, List.length_cons]; omega) (Nat.le_refl _)]
    rfl
  | incomplete => simp only [charsOfBytesF, hsc]

theorem utf8Validate_some_bounds_aux :
    ∀ (N : Nat) (l : List Nat), l.length ≤ N → ∀ v e, utf8Validate l = some (v, e) →
      v ≤ l.length ∧ ∀ k, e = some k → 1 ≤ k ∧ v + k ≤ l.length := by
  intro N
  induction N with
  | zero =>
    intro l hl v e h
    have : l = [] := List.length_eq_zero.mp (Nat.le_zero.mp hl)
    subst this
    simp [utf8Validate, utf8ValidateF] at h
  | succ N ih =>
    intro l hl v e h
    match l with
    | [] => simp [utf8Validate, utf8ValidateF] at h
    | b :: rest =>
      rw [utf8Validate_step] at h
      split at h
      · rename_i n hsc
        split at h
        · cases h
        · rename_i v' e' hv
          have hn := seqCheck_valid_pos hsc
          simp only [List.length_cons] at hn
          have hdroplen : ((b :: rest).drop n).length ≤ N := by
            simp only [List.length_drop, List.length_cons]
            simp only [List.length_cons] at hl
            omega
          have := ih _ hdroplen v' e' hv
          simp only [List.length_drop, List.length_cons] at this
          cases h
          constructor
          · simp only [List.length_cons]; omega
          · intro k hk
            have := this.2 k hk
            simp only [List.length_cons]
            omega
      · rename_i n hsc
        cases h
        have := seqCheck_invalid_pos hsc
        simp only [List.length_cons] at this
        constructor
        · omega
        · intro k hk
          cases hk
          simp only [List.length_cons]
          omega
      · cases h
        constructor
        · omega
        · intro k hk; cases hk

theorem utf8Validate_some_bounds {l : List Nat} {v : Nat} {e : Option Nat}
    (h : utf8Validate l = some (v, e)) :
    v ≤ l.length ∧ ∀ k, e = some k → 1 ≤ k ∧ v + k ≤ l.length :=
  utf8Validate_some_bounds_aux l.length l (Nat.le_refl _) v e h

/-! ## `SliceReader` (`src/slice_reader.rs`) -/

/-- State of a `SliceReader`: the remaining slice and the (never set by
`read_outcome`) `ended` flag. -/
structure SliceReaderState where
  slice : List Nat
  ended : Bool
deriving DecidableEq

/-- `SliceReader::read_outcome` from `src/slice_reader.rs`: reads into a
buffer of length `bufLen` and reports `ready_or_not(size, buf.is_empty()
|| !slice.is_empty())`.  It never fails. -/
def sliceReadOutcome (s : SliceReaderState) (bufLen : Nat) :
    List Nat × Status × SliceReaderState :=
  if s.ended then ([], .ended, s)
  else
    let taken := s.slice.take bufLen
    let rest := s.slice.drop bufLen
    (taken, Status.readyOrNot (bufLen = 0 || !rest.isEmpty), ⟨rest, s.ended⟩)

/-- An error-free byte source presenting the `Read::read_outcome`
interface: from a state and a buffer length it yields the written bytes,
a status, and the next state, writing at most `bufLen` bytes. -/
structure ReaderModel (σ : Type) where
  read : σ → Nat → List Nat × Status × σ
  size_le : ∀ s n, (read s n).1.length ≤ n

/-- The `SliceReader` instance of the source interface. -/
def sliceModel : ReaderModel SliceReaderState where
  read := sliceReadOutcome
  size_le := by
    intro s n
    simp only [sliceReadOutcome]
    split <;> simp

/-! ## `Utf8Reader` (`src/utf8_reader.rs`) -/

/-- `IncompleteHow` from `src/utf8_reader.rs`. -/
inductive IncompleteHow where
  | incInclude : IncompleteHow
  | incExclude : IncompleteHow
  | incReplace : IncompleteHow
deriving DecidableEq

/-- Fueled worker for the `process_overflow` loop; one replacement
iteration per fuel unit, so fuel at least the overflow length gives the
true value. -/
def processOverflowF (fuel avail : Nat) (ov : List Nat) (how : IncompleteHow) :
    Option (List Nat × List Nat) :=
  match utf8Validate (ov.take (min avail ov.length)) with
  | none => some (ov.take (min avail ov.length), ov.drop (min avail ov.length))
  | some (v, elen) =>
    match elen with
    | some isl =>
      if 3 ≤ avail - v then
        match fuel with
        | 0 => none
        | fuel' + 1 =>
          match processOverflowF fuel' (avail - v - 3) ((ov.drop v).drop isl) how with
          | none => none
          | some (em2, ov2) => some (ov.take v ++ replBytes ++ em2, ov2)
      else some (ov.take v, ov.drop v)
    | none =>
      match how with
      | .incReplace =>
          if 3 ≤ avail - v then some (ov.take v ++ replBytes, [])
          else if (ov.drop v).isEmpty then none
          else some (ov.take v, ov.drop v)
      | .incInclude =>
          if min avail ov.length = ov.length then
            some (ov.take v ++ (ov.drop v).take (min (avail - v) (ov.drop v).length),
                  (ov.drop v).drop (min (avail - v) (ov.drop v).length))
          else some (ov.take v, ov.drop v)
      | .incExclude => some (ov.take v, ov.drop v)

theorem processOverflowF_irrel :
    ∀ (f f' : Nat) (avail : Nat) (ov : List Nat) (how : IncompleteHow),
      ov.length ≤ f → ov.length ≤ f' →
      processOverflowF f avail ov how = processOverflowF f' avail ov how := by
  intro f
  induction f with
  | zero =>
    intro f' avail ov how hf hf'
    have : ov = [] := List.length_eq_zero.mp (Nat.le_zero.mp hf)
    subst this
    cases f' <;>
      (conv_lhs => rw [processOverflowF.eq_def]) <;>
      (conv_rhs => rw [processOverflowF.eq_def]) <;>
      simp [utf8Validate, utf8ValidateF]
  | succ f ih =>
    intro f' avail ov how hf hf'
    conv_lhs => rw [processOverflowF.eq_def]
    conv_rhs => rw [processOverflowF.eq_def]
    cases hv : utf8Validate (ov.take (min avail ov.length)) with
    | none => rfl
    | some p =>
      obtain ⟨v, elen⟩ := p
      cases elen with
      | none => rfl
      | some isl =>
        simp only
        split
        · have hb := utf8Validate_some_bounds hv
          have hb2 := hb.2 isl rfl
          simp only [List.length_take] at hb hb2
          match f' with
          | 0 => omega
          | f' + 1 =>
            simp only
            rw [ih f' (avail - v - 3) ((ov.drop v).drop isl) how
              (by simp only [List.length_drop]; omega)
              (by simp only [List.length_drop]; omega)]
        · rfl

/-- `Utf8Reader::process_overflow` from `src/utf8_reader.rs`, written as a
function of the available buffer space and the overflow buffer; returns
the bytes emitted into the caller's buffer and the new overflow (`none`
models the `return None` inside the `Replace` arm). -/
def processOverflowGo (avail : Nat) (ov : List Nat) (how : IncompleteHow) :
    Option (List Nat × List Nat) :=
  processOverflowF ov.length avail ov how

theorem processOverflowGo_step (avail : Nat) (ov : List Nat) (how : IncompleteHow) :
    processOverflowGo avail ov how =
      (match utf8Validate (ov.take (min avail ov.length)) with
       | none => some (ov.take (min avail ov.length), ov.drop (min avail ov.length))
       | some (v, elen) =>
         match elen with
         | some isl =>
           if 3 ≤ avail - v then
             match processOverflowGo (avail - v - 3) ((ov.drop v).drop isl) how with
             | none => none
             | some (em2, ov2) => some (ov.take v ++ replBytes ++ em2, ov2)
           else some (ov.take v, ov.drop v)
         | none =>
           match how with
           | .incReplace =>
               if 3 ≤ avail - v then some (ov.take v ++ replBytes, [])
               else if (ov.drop v).isEmpty then none
               else some (ov.take v, ov.drop v)
           | .incInclude =>
               if min avail ov.length = ov.length then
                 some (ov.take v ++ (ov.drop v).take (min (avail - v) (ov.drop v).length),
                       (ov.drop v).drop (min (avail - v) (ov.drop v).length))
               else some (ov.take v, ov.drop v)
           | .incExclude => some (ov.take v, ov.drop v)) := by
  show processOverflowF ov.length avail ov how = _
  conv_lhs => rw [processOverflowF.eq_def]
  cases hv : utf8Validate (ov.take (min avail ov.length)) with
  | none => rfl
  | some p =>
    obtain ⟨v, elen⟩ := p
    cases elen with
    | none => rfl
    | some isl =>
      simp only
      split
      · have hb := utf8Validate_some_bounds hv
        have hb2 := hb.2 isl rfl
        simp only [List.length_take] at hb hb2
        match hov : ov.length with
        | 0 => omega
        | ovl + 1 =>
          simp only
          rw [show processOverflowGo (avail - v - 3) ((ov.drop v).drop isl) how =
              processOverflowF ((ov.drop v).drop isl).length (avail - v - 3) ((ov.drop v).drop isl) how from rfl]
          rw [processOverflowF_irrel ovl ((ov.drop v).drop isl).length (avail - v - 3) ((ov.drop v).drop isl) how
            (by simp only [List.length_drop]; omega) (Nat.le_refl _)]
      · rfl

/-- State of a `Utf8Reader` over a source with state type `σ`. -/
structure Utf8ReaderState (σ : Type) where
  inner : σ
  overflow : List Nat

/-- `Utf8Reader::read_outcome` from `src/utf8_reader.rs`.  Returns the
bytes written into the caller's buffer together with the reported status,
or the error, plus the post-call state. -/
def utf8ReadOutcome {σ : Type} (M : ReaderModel σ) (s : Utf8ReaderState σ) (bufLen : Nat) :
    Except IoErr (List Nat × Status) × Utf8ReaderState σ :=
  if bufLen < 4 then (.error .invalidInput, s)
  else
    let step1 :=
      if s.overflow.isEmpty then some (([] : List Nat), s.overflow)
      else processOverflowGo bufLen s.overflow .incInclude
    match step1 with
    | none => (.error .panicked, s)
    | some (out0, ov0) =>
      if ¬ ov0.isEmpty then (.ok (out0, Status.ready), ⟨s.inner, ov0⟩)
      else
        let r := M.read s.inner (bufLen - out0.length)
        let bytes := r.1
        let st := r.2.1
        let inner' := r.2.2
        let nread := out0 ++ bytes
        match utf8Validate nread with
        | none => (.ok (nread, st), ⟨inner', []⟩)
        | some (v, _) =>
          let validPart := nread.take v
          let afterValid := nread.drop v
          let how := if st.isEnd then IncompleteHow.incReplace else IncompleteHow.incExclude
          match processOverflowGo (bufLen - v) afterValid how with
          | none => (.error .other, ⟨inner', []⟩)
          | some (em, ov') =>
            if ov'.isEmpty then (.ok (validPart ++ em, st), ⟨inner', ov'⟩)
            else (.ok (validPart ++ em, Status.ready), ⟨inner', ov'⟩)

/-- Repeatedly call `utf8ReadOutcome` with a fixed caller-buffer size,
collecting the returned chunks, until a call reports `End`; `none` when
the fuel runs out or a call fails. -/
def utf8ReadAll {σ : Type} (M : ReaderModel σ) :
    Nat → Utf8ReaderState σ → Nat → Option (List (List Nat))
  | 0, _, _ => none
  | fuel + 1, s, bufLen =>
    match utf8ReadOutcome M s bufLen with
    | (.ok (chunk, st), s') =>
      if st.isEnd then some [chunk]
      else
        match utf8ReadAll M fuel s' bufLen with
        | none => none
        | some rest => some (chunk :: rest)
    | (.error _, _) => none

/-! ## `StdReader` (`src/std_reader.rs`)

The wrapped `io::Read` host is modelled as a script of read results:
each event is the outcome of one host `read` call. -/

/-- One host `read` result: bytes written (`Ok`), an interrupted error,
or another error. -/
inductive HostEvent where
  | bytes : List Nat → HostEvent
  | interrupted : HostEvent
  | fail : HostEvent
deriving DecidableEq

/-- State of a `StdReader`: the host script and the three flags. -/
structure StdReaderState where
  host : List HostEvent
  stickyEnd : Bool
  lineByLine : Bool
  ended : Bool
deriving DecidableEq

/-- `StdReader::generic` from `src/std_reader.rs`. -/
def stdGeneric (host : List HostEvent) : StdReaderState :=
  ⟨host, true, false, false⟩

/-- `StdReader::wait_for_lulls` from `src/std_reader.rs`. -/
def stdWaitForLulls (host : List HostEvent) : StdReaderState :=
  ⟨host, false, false, false⟩

/-- `StdReader::line_by_line` from `src/std_reader.rs`. -/
def stdLineByLine (host : List HostEvent) : StdReaderState :=
  ⟨host, true, true, false⟩

/-- `StdReader::read_outcome` from `src/std_reader.rs`.  A host script
that has run out behaves as a host returning `Ok(0)` forever. -/
def stdReadOutcome (s : StdReaderState) (bufLen : Nat) :
    Except IoErr ReadOutcome × StdReaderState :=
  if s.ended then (.ok (ReadOutcome.atEnd 0), s)
  else
    let ev := s.host.headD (HostEvent.bytes [])
    let rest := s.host.tail
    match ev with
    | HostEvent.bytes bs =>
      let written := bs.take bufLen
      if written.length = 0 ∧ bufLen ≠ 0 then
        if s.stickyEnd then (.ok (ReadOutcome.atEnd 0), { s with host := rest, ended := true })
        else (.ok (ReadOutcome.lull 0), { s with host := rest })
      else
        if s.lineByLine then
          if written.length = 0 then (.error .panicked, { s with host := rest })
          else if written.getLast? = some 10 then
            (.ok (ReadOutcome.lull written.length), { s with host := rest })
          else (.ok (ReadOutcome.ready written.length), { s with host := rest })
        else (.ok (ReadOutcome.ready written.length), { s with host := rest })
    | HostEvent.interrupted => (.ok (ReadOutcome.ready 0), { s with host := rest })
    | HostEvent.fail => (.error .other, { s with host := rest })

/-- A sequence of `read_outcome` calls with the given buffer lengths,
collecting the results and the final state. -/
def stdRunReads (s : StdReaderState) : List Nat → List (Except IoErr ReadOutcome) × StdReaderState
  | [] => ([], s)
  | bufLen :: rest =>
    let r := stdReadOutcome s bufLen
    let rs := stdRunReads r.2 rest
    (r.1 :: rs.1, rs.2)

/-- The `saw_line` scan of `StdReader::read_vectored_outcome`
(`src/std_reader.rs` lines 132-141), byte-for-byte faithful to the
index arithmetic of the source, which decrements `i` by `bufs.len()` (the
number of buffers) on each iteration; `none` models an index panic. -/
def sawLineLoop (bufsCount : Nat) : List (List Nat) → Nat → Option Bool
  | [], _ => some false
  | buf :: rest, i =>
    if i < buf.length then
      if i = 0 then none
      else some (buf.getD (i - 1) 0 == 10)
    else
      if i < bufsCount then none
      else sawLineLoop bufsCount rest (i - bufsCount)

/-- `StdReader::read_vectored_outcome` from `src/std_reader.rs`, given
the buffer contents after a successful host `read_vectored` wrote `size`
bytes across `bufs` in order. -/
def stdReadVectoredOutcome (s : StdReaderState) (bufs : List (List Nat)) (size : Nat) :
    Except IoErr ReadOutcome × StdReaderState :=
  if s.ended then (.ok (ReadOutcome.atEnd 0), s)
  else if size = 0 ∧ ¬ (bufs.all List.isEmpty) then
    if s.stickyEnd then (.ok (ReadOutcome.atEnd 0), { s with ended := true })
    else (.ok (ReadOutcome.lull 0), s)
  else
    if s.lineByLine then
      match sawLineLoop bufs.length bufs size with
      | none => (.error .panicked, s)
      | some true => (.ok (ReadOutcome.lull size), s)
      | some false => (.ok (ReadOutcome.ready size), s)
    else (.ok (ReadOutcome.ready size), s)

/-- Claim C4: for a `StdReader` in a sticky-end mode, once `ended` has
latched, every subsequent `read_outcome` call returns `{size: 0, status:
End}` and leaves the state (in particular the host script) unchanged, so
the host reader is never invoked again. -/
theorem claim_C4 (s : StdReaderState) (hsticky : s.stickyEnd = true)
    (hended : s.ended = true) (lens : List Nat) :
    stdRunReads s lens = (lens.map (fun _ => Except.ok (ReadOutcome.atEnd 0)), s) := by
  induction lens with
  | nil => rfl
  | cons bufLen rest ih =>
    simp only [stdRunReads, stdReadOutcome, hended, if_true, ih, List.map_cons]

/-- Witness for C4: a generic-mode reader that has latched `ended`, with
a host script still pending, returns `{0, End}` on three further reads
and never consumes the script. -/
theorem claim_C4_witness :
    stdRunReads ⟨[HostEvent.bytes [0x68]], true, false, true⟩ [4, 0, 7] =
      ([Except.ok (ReadOutcome.atEnd 0), Except.ok (ReadOutcome.atEnd 0),
        Except.ok (ReadOutcome.atEnd 0)], ⟨[HostEvent.bytes [0x68]], true, false, true⟩) :=
  claim_C4 ⟨[HostEvent.bytes [0x68]], true, false, true⟩ rfl rfl [4, 0, 7]

/-- Claim C6 (counter-evidence): in `line_by_line` mode, a successful
vectored host read of 1 byte that exactly fills a single 1-byte buffer
with `b'\n'` is reported `Ready`, although the last byte written by the
host read is `'\n'` (the claim, following the declared intent, requires
`Lull`): the scan compares `i < buf.len()` instead of `i <= buf.len()`
and decrements `i` by the number of buffers. -/
theorem claim_C6_bug :
    stdReadVectoredOutcome (stdLineByLine []) [[10]] 1 =
      (.ok (ReadOutcome.ready 1), stdLineByLine []) ∧
    ([[10]] : List (List Nat)).flatten.getLast? = some 10 := by
  constructor
  · rfl
  · rfl

/-- Claim C8: `Utf8Reader::read_outcome` with a caller buffer shorter
than 4 bytes fails with an invalid-input error (for any wrapped source,
which is not consulted), leaving the state unchanged. -/
theorem claim_C8 {σ : Type} (M : ReaderModel σ) (s : Utf8ReaderState σ) (bufLen : Nat)
    (h : bufLen < 4) :
    utf8ReadOutcome M s bufLen = (.error .invalidInput, s) := by
  simp [utf8ReadOutcome, h]

/-- Witness for C8: a 3-byte caller buffer over a slice source. -/
theorem claim_C8_witness :
    utf8ReadOutcome sliceModel ⟨⟨[0x68, 0x69], false⟩, []⟩ 3 =
      (.error .invalidInput, ⟨⟨[0x68, 0x69], false⟩, []⟩) :=
  claim_C8 sliceModel ⟨⟨[0x68, 0x69], false⟩, []⟩ 3 (by decide)

/-! ## `StdWriter` (`src/std_writer.rs`)

The wrapped `io::Write` is a byte sink (a `Vec<u8>`), which accepts every
write in full and whose `flush` always succeeds. -/

/-- State of a `StdWriter` over a byte-vector sink: the accepted bytes,
a count of `flush` calls on the sink, and the `ended` latch. -/
structure StdWriterState where
  sink : List Nat
  flushed : Nat
  ended : Bool
deriving DecidableEq

/-- A freshly constructed `StdWriter` over an empty vector. -/
def stdwInit : StdWriterState := ⟨[], 0, false⟩

/-- `StdWriter::write` from `src/std_writer.rs` (a `Vec` sink accepts the
whole buffer). -/
def stdwWrite (s : StdWriterState) (buf : List Nat) : Except IoErr Nat × StdWriterState :=
  if s.ended then (.error .other, s)
  else (.ok buf.length, { s with sink := s.sink ++ buf })

/-- `StdWriter::write_all` from `src/std_writer.rs`. -/
def stdwWriteAll (s : StdWriterState) (buf : List Nat) : Except IoErr Unit × StdWriterState :=
  if s.ended then (.error .other, s)
  else (.ok (), { s with sink := s.sink ++ buf })

/-- `StdWriter::flush(status)` from `src/std_writer.rs`. -/
def stdwFlush (s : StdWriterState) (st : Status) : Except IoErr Unit × StdWriterState :=
  if s.ended then (.error .other, s)
  else
    match st with
    | .opened .ready => (.ok (), s)
    | .opened .lull => (.ok (), { s with flushed := s.flushed + 1 })
    | .ended => (.ok (), { s with flushed := s.flushed + 1, ended := true })

/-- `StdWriter::abandon` from `src/std_writer.rs`. -/
def stdwAbandon (s : StdWriterState) : StdWriterState := { s with ended := true }

/-! ## `Utf8Writer` (`src/utf8_writer.rs`)

`Utf8Writer` holds no state of its own beyond the wrapped writer.  Its
`write` validates the buffer; on a prefix error it forwards the valid
part through `write_all`, whose loop terminates after one inner `write`
because the part is fully valid UTF-8. -/

/-- `Utf8Writer::write` from `src/utf8_writer.rs`, over a `StdWriter`
sink.  The middle arm inlines `self.write_all(&buf[..valid_up_to])`: the
sliced part is fully valid, so the `write_all` loop makes exactly one
inner `write` call, which lands in the first arm and forwards the bytes
in full. -/
def u8wWrite (s : StdWriterState) (buf : List Nat) : Except IoErr Nat × StdWriterState :=
  match utf8Validate buf with
  | none =>
    (match stdwWriteAll s buf with
     | (.ok _, s') => (.ok buf.length, s')
     | (.error e, s') => (.error e, s'))
  | some (v, _) =>
    if v ≠ 0 then
      (match stdwWriteAll s (buf.take v) with
       | (.ok _, s') => (.ok v, s')
       | (.error e, s') => (.error e, s'))
    else (.error .other, stdwAbandon s)

/-- `Utf8Writer::flush` from `src/utf8_writer.rs`. -/
def u8wFlush (s : StdWriterState) (st : Status) : Except IoErr Unit × StdWriterState :=
  stdwFlush s st

/-- `Utf8Writer::close_into_inner` from `src/utf8_writer.rs`: a
`flush(End)` followed by returning the inner writer. -/
def u8wCloseIntoInner (s : StdWriterState) : Except IoErr StdWriterState × StdWriterState :=
  match stdwFlush s .ended with
  | (.ok _, s') => (.ok s', s')
  | (.error e, s') => (.error e, s')

/-! ## `TextWriter` (`src/text_writer.rs`)

The Stream-Safe + NFC pipeline (`s.chars().stream_safe().nfc()` of the
external `unicode_normalization` crate) and
`is_normalization_form_starter` (from `unicode.rs`, which is not under
`src/`) are parameters of the embedding. -/

/-- Modelled from the spec: the interface presented by the external
normalization pipeline and the missing `unicode.rs`.  `nfcSS` is
`chars().stream_safe().nfc()`; `isStarter` is
`is_normalization_form_starter` (true iff the canonical combining class
is zero, spec glossary); `readPipe` is the reader pipeline
`NoForbiddenCharacters::new(iter.stream_safe().nfc())` with `None` items
replaced by U+FFFD. -/
structure TextPipe where
  nfcSS : List Char → List Char
  isStarter : Char → Bool
  readPipe : List Char → List Char

/-- `char::is_control` (Unicode `Cc`: U+0000..U+001F and
U+007F..U+009F). -/
def isControlRust (c : Char) : Bool :=
  c.toNat ≤ 0x1F || (0x7F ≤ c.toNat && c.toNat ≤ 0x9F)

/-- State of a `TextWriter` over a `Utf8Writer<StdWriter>`: the staging
buffer, the `nl` guard value, the CRLF flag and the starter flag. -/
structure TextWriterState where
  inner : StdWriterState
  buffer : List Char
  nl : Bool
  crlfCompat : Bool
  expectStarter : Bool
deriving DecidableEq

/-- `TextWriter::new` over a fresh vector sink. -/
def twInit : TextWriterState := ⟨stdwInit, [], false, false, true⟩

/-- `TextWriter::abandon` from `src/text_writer.rs`: abandon the inner
writer and release the newline guard. -/
def twAbandon (s : TextWriterState) : TextWriterState :=
  { s with inner := stdwAbandon s.inner, nl := true }

/-- `TextWriter::write_buffer` from `src/text_writer.rs`. -/
def twWriteBuffer (P : TextPipe) (s : TextWriterState) :
    Except IoErr Unit × TextWriterState :=
  let s1 := if s.expectStarter then { s with expectStarter := false } else s
  let starterBad : Bool :=
    s.expectStarter &&
      (match s.buffer.head? with
       | some c => ! P.isStarter c
       | none => false)
  if starterBad then
    (.error .other, twAbandon s1)
  else if s1.buffer.any (fun c => (isControlRust c && c != '\n' && c != '\t') || c == Char.ofNat 0xFEFF) then
    (.error .other, twAbandon s1)
  else
    match stdwWriteAll s1.inner (utf8EncodeList s1.buffer) with
    | (.ok _, i') =>
      let nl' :=
        match (utf8EncodeList s1.buffer).getLast? with
        | some last => last = 10
        | none => s1.nl
      (.ok (), { s1 with inner := i', nl := nl', buffer := [] })
    | (.error e, i') => (.error e, twAbandon { s1 with inner := i' })

/-- `str::split('\n')` on a character list. -/
def splitOnNl : List Char → List (List Char)
  | [] => [[]]
  | c :: rest =>
    let r := splitOnNl rest
    if c = '\n' then [] :: r
    else (c :: r.headD []) :: r.tail

/-- `TextWriter::normal_write_all_utf8` from `src/text_writer.rs`. -/
def twNormalWriteAllUtf8 (P : TextPipe) (s : TextWriterState) (cs : List Char) :
    Except IoErr Unit × TextWriterState :=
  twWriteBuffer P { s with buffer := s.buffer ++ P.nfcSS cs }

/-- `TextWriter::crlf_write_all_utf8` from `src/text_writer.rs`. -/
def twCrlfWriteAllUtf8 (P : TextPipe) (s : TextWriterState) (cs : List Char) :
    Except IoErr Unit × TextWriterState :=
  let pieces :=
    match splitOnNl cs with
    | [] => []
    | s0 :: rest => P.nfcSS s0 ++ (rest.map (fun sg => '\r' :: '\n' :: P.nfcSS sg)).flatten
  twWriteBuffer P { s with buffer := s.buffer ++ pieces }

/-- `TextWriter::write_all_utf8` from `src/text_writer.rs`. -/
def twWriteAllUtf8 (P : TextPipe) (s : TextWriterState) (cs : List Char) :
    Except IoErr Unit × TextWriterState :=
  if s.crlfCompat then twCrlfWriteAllUtf8 P s cs else twNormalWriteAllUtf8 P s cs

/-- `TextWriter::write` from `src/text_writer.rs`, over a `StdWriter`
sink.  The middle arm inlines `self.write_all(&buf[..valid_up_to])` (one
inner `write` call, as the sliced part is fully valid) and then, as in
the source, reports the whole of `buf` as consumed. -/
def twWrite (P : TextPipe) (s : TextWriterState) (buf : List Nat) :
    Except IoErr Nat × TextWriterState :=
  match utf8Validate buf with
  | none =>
    (match twWriteAllUtf8 P s (charsOfBytes buf) with
     | (.ok _, s') => (.ok buf.length, s')
     | (.error e, s') => (.error e, s'))
  | some (v, _) =>
    if v ≠ 0 then
      (match twWriteAllUtf8 P s (charsOfBytes (buf.take v)) with
       | (.ok _, s') => (.ok buf.length, s')
       | (.error e, s') => (.error e, s'))
    else (.error .other, twAbandon s)

/-- `default_write_all` from `src/write.rs`, looping on `TextWriter::write`
with one unit of fuel per iteration. -/
def twWriteAllF (P : TextPipe) : Nat → TextWriterState → List Nat →
    Except IoErr Unit × TextWriterState
  | _, s, [] => (.ok (), s)
  | 0, s, _ :: _ => (.error .panicked, s)
  | fuel + 1, s, buf =>
    match twWrite P s buf with
    | (.ok n, s') =>
      if n = 0 then (.error .writeZero, s')
      else twWriteAllF P fuel s' (buf.drop n)
    | (.error .interrupted, s') => twWriteAllF P fuel s' buf
    | (.error e, s') => (.error e, s')

/-- `TextWriter::write_all` (the `default_write_all` loop with enough
fuel for the buffer). -/
def twWriteAll (P : TextPipe) (s : TextWriterState) (buf : List Nat) :
    Except IoErr Unit × TextWriterState :=
  twWriteAllF P (buf.length + 1) s buf

/-- `TextWriter::check_nl` from `src/text_writer.rs`. -/
def twCheckNl (s : TextWriterState) (st : Status) : Except IoErr Unit × TextWriterState :=
  match st with
  | .ended => if s.nl then (.ok (), s) else (.error .other, twAbandon s)
  | .opened .lull => if s.nl then (.ok (), s) else (.error .other, twAbandon s)
  | .opened .ready => (.ok (), s)

/-- `TextWriter::flush(status)` from `src/text_writer.rs`. -/
def twFlush (s : TextWriterState) (st : Status) : Except IoErr Unit × TextWriterState :=
  let s0 := if st ≠ Status.ready then { s with expectStarter := true } else s
  match twCheckNl s0 st with
  | (.ok _, s1) =>
    (match stdwFlush s1.inner st with
     | (.ok _, i') => (.ok (), { s1 with inner := i' })
     | (.error e, i') => (.error e, { s1 with inner := i' }))
  | (.error e, s1) => (.error e, s1)

/-- `TextWriter::close_into_inner` from `src/text_writer.rs`: the
terminal-newline check followed by the inner `close_into_inner`
(`flush(End)`). -/
def twCloseIntoInner (s : TextWriterState) : Except IoErr StdWriterState × TextWriterState :=
  match twCheckNl s .ended with
  | (.ok _, s1) =>
    (match u8wCloseIntoInner s1.inner with
     | (.ok i, i') => (.ok i, { s1 with inner := i' })
     | (.error e, i') => (.error e, { s1 with inner := i' }))
  | (.error e, s1) => (.error e, s1)

/-- The sequence `textwriter.write_all(s)` followed by
`close_into_inner()`, the subject of the writer-symmetry property. -/
def twWriteAllClose (P : TextPipe) (s : TextWriterState) (buf : List Nat) :
    Except IoErr StdWriterState × TextWriterState :=
  match twWriteAll P s buf with
  | (.ok _, s') => twCloseIntoInner s'
  | (.error e, s') => (.error e, s')

/-- The identity pipeline: a legitimate instantiation of `TextPipe` on
text that is already in NFC and Stream-Safe form and made of
combining-class-zero scalars (all scalars used at concrete evaluation
points below are ASCII, for which this is exact). -/
def idPipe : TextPipe := ⟨fun cs => cs, fun _ => true, fun cs => cs⟩

/-- The staging-buffer contents after `write_all_utf8` appends the
normalized text (normal mode). -/
def twStaged (P : TextPipe) (s : TextWriterState) (cs : List Char) : List Char :=
  s.buffer ++ P.nfcSS cs

/-- Claim C7 (counter-evidence): `Utf8Writer::write` on `[0x61, 0xFF]`
(invalid UTF-8 with the non-empty valid part `[0x61]`) returns `Ok(1)`
(`error.valid_up_to()`), not the entire input length 2 stated by the
claim. -/
theorem claim_C7_cex :
    (u8wWrite stdwInit [0x61, 0xFF]).1 = .ok 1 ∧
    (u8wWrite stdwInit [0x61, 0xFF]).1 ≠ .ok 2 := by
  decide

/-- Claim C7 (amended): over an open sink, `Utf8Writer::write` forwards
a fully valid buffer whole and returns its length; on an invalid buffer
with a non-empty valid part it forwards exactly that part and returns
the part's length (`valid_up_to`, not the entire input length); and on a
buffer invalid from byte 0 it abandons the stream and fails. -/
theorem claim_C7 (s : StdWriterState) (buf : List Nat) (hopen : s.ended = false) :
    (utf8Validate buf = none →
      u8wWrite s buf = (.ok buf.length, { s with sink := s.sink ++ buf })) ∧
    (∀ v e, utf8Validate buf = some (v, e) → v ≠ 0 →
      u8wWrite s buf = (.ok v, { s with sink := s.sink ++ buf.take v })) ∧
    (∀ e, utf8Validate buf = some (0, e) →
      u8wWrite s buf = (.error .other, stdwAbandon s)) := by
  refine ⟨fun hval => ?_, fun v e hval hv => ?_, fun e hval => ?_⟩
  · simp [u8wWrite, hval, stdwWriteAll, hopen]
  · simp [u8wWrite, hval, hv, stdwWriteAll, hopen]
  · simp [u8wWrite, hval, stdwWriteAll, hopen]

/-- Witness for C7: the concrete middle case. -/
theorem claim_C7_witness :
    u8wWrite stdwInit [0x61, 0xFF] =
      (.ok 1, { stdwInit with sink := stdwInit.sink ++ [0x61, 0xFF].take 1 }) :=
  (claim_C7 stdwInit [0x61, 0xFF] rfl).2.1 1 (some 1) (by decide) (by decide)

/-- Claim C9 (counter-evidence): `TextWriter::write` on `[0x07, 0xFF]`
(invalid UTF-8 whose non-empty valid part is the control scalar U+0007)
returns an error and abandons the stream rather than `Ok(2)`: the staged
prefix trips the control-code check.  This refutes the claim as
universally stated. -/
theorem claim_C9_cex :
    (twWrite idPipe twInit [0x07, 0xFF]).1 = .error .other ∧
    (twWrite idPipe twInit [0x07, 0xFF]).1 ≠ .ok 2 ∧
    utf8Validate [0x07, 0xFF] = some (1, some 1) := by
  decide

/-- Claim C9 (amended): in normal (non-CRLF) mode over an open sink,
when `buf` is invalid UTF-8 with a non-empty valid part and the staged,
normalized part passes the starter and forbidden-scalar checks,
`TextWriter::write` forwards only that part to the stream yet returns
`Ok(buf.len())`, without abandoning: the bytes after the valid part are
silently discarded. -/
theorem claim_C9 (P : TextPipe) (s : TextWriterState) (buf : List Nat) (v : Nat) (e : Option Nat)
    (hval : utf8Validate buf = some (v, e)) (hv : v ≠ 0)
    (hcrlf : s.crlfCompat = false)
    (hopen : s.inner.ended = false)
    (hstart : s.expectStarter = true →
      ∀ c, (twStaged P s (charsOfBytes (buf.take v))).head? = some c → P.isStarter c = true)
    (hclean : (twStaged P s (charsOfBytes (buf.take v))).any
      (fun c => (isControlRust c && c != '\n' && c != '\t') || c == Char.ofNat 0xFEFF) = false) :
    (twWrite P s buf).1 = .ok buf.length ∧
    (twWrite P s buf).2.inner.sink =
      s.inner.sink ++ utf8EncodeList (twStaged P s (charsOfBytes (buf.take v))) ∧
    (twWrite P s buf).2.inner.ended = false := by
  obtain ⟨⟨sink, flushed, ended⟩, bufr, nl, crlf, es⟩ := s
  simp only at hopen hcrlf
  subst hopen hcrlf
  have hstaged : twStaged P ⟨⟨sink, flushed, false⟩, bufr, nl, false, es⟩
      (charsOfBytes (buf.take v)) = bufr ++ P.nfcSS (charsOfBytes (buf.take v)) := rfl
  rw [hstaged] at hstart hclean ⊢
  simp only [twWrite, hval, if_pos hv, twWriteAllUtf8, twNormalWriteAllUtf8, twWriteBuffer,
    Bool.false_eq_true, if_false]
  cases hes : es with
  | false =>
    simp only [Bool.false_and, Bool.false_eq_true, if_false, hclean, stdwWriteAll]
    exact ⟨trivial, trivial, trivial⟩
  | true =>
    have hsb : (match (bufr ++ P.nfcSS (charsOfBytes (buf.take v))).head? with
       | some c => ! P.isStarter c
       | none => false) = false := by
      cases hh : (bufr ++ P.nfcSS (charsOfBytes (buf.take v))).head? with
      | none => rfl
      | some c => simp [hstart hes c hh]
    simp only [Bool.true_and, hsb, Bool.false_eq_true, if_false, if_true, hclean, stdwWriteAll]
    exact ⟨trivial, trivial, trivial⟩

/-- Witness for C9: the concrete input `[0x61, 0xFF]` from a fresh
writer: `"a"` is forwarded, `Ok(2)` is returned, the `0xFF` disappears. -/
theorem claim_C9_witness :
    (twWrite idPipe twInit [0x61, 0xFF]).1 = .ok 2 ∧
    (twWrite idPipe twInit [0x61, 0xFF]).2.inner.sink =
      twInit.inner.sink ++ utf8EncodeList (twStaged idPipe twInit (charsOfBytes ([0x61, 0xFF].take 1))) ∧
    (twWrite idPipe twInit [0x61, 0xFF]).2.inner.ended = false := by
  have h := claim_C9 idPipe twInit [0x61, 0xFF] 1 (some 1) (by decide) (by decide) rfl rfl
    (by intro _ c _; rfl) (by decide)
  simpa using h

/-- Claim C3 (counter-evidence to the writer-symmetry iff):
`write_all(b"hello\n\xFF")` followed by `close_into_inner()` succeeds —
with only `"hello\n"` reaching the sink — although the input is not
valid UTF-8, because `TextWriter::write` reports the whole buffer as
consumed after writing only the valid part.  The hypotheses record that
the normalization pipeline leaves the ASCII text `"hello\n"` unchanged
and that `'h'` is a starter, which hold for NFC, Stream-Safe and
canonical combining classes. -/
theorem claim_C3_bug (P : TextPipe)
    (hn : P.nfcSS ['h', 'e', 'l', 'l', 'o', '\n'] = ['h', 'e', 'l', 'l', 'o', '\n'])
    (hst : P.isStarter 'h' = true) :
    (twWriteAllClose P twInit [0x68, 0x65, 0x6C, 0x6C, 0x6F, 0x0A, 0xFF]).1 =
      .ok ⟨[0x68, 0x65, 0x6C, 0x6C, 0x6F, 0x0A], 1, true⟩ ∧
    utf8Validate [0x68, 0x65, 0x6C, 0x6C, 0x6F, 0x0A, 0xFF] = some (6, some 1) := by
  constructor
  · have hchars : charsOfBytes [0x68, 0x65, 0x6C, 0x6C, 0x6F, 0x0A] =
        ['h', 'e', 'l', 'l', 'o', '\n'] := by decide
    simp [twWriteAllClose, twWriteAll, twWriteAllF, twWrite,
      show utf8Validate [0x68, 0x65, 0x6C, 0x6C, 0x6F, 0x0A, 0xFF] = some (6, some 1) by decide,
      hchars, twWriteAllUtf8, twNormalWriteAllUtf8, twCrlfWriteAllUtf8, twWriteBuffer, twInit,
      hn, hst, twCheckNl, twCloseIntoInner, u8wCloseIntoInner, stdwFlush, stdwWriteAll,
      stdwInit, twAbandon, stdwAbandon, isControlRust, utf8EncodeList, utf8EncodeChar]
  · decide

/-- Witness for C3: the identity pipeline instantiation. -/
theorem claim_C3_bug_witness :
    (twWriteAllClose idPipe twInit [0x68, 0x65, 0x6C, 0x6C, 0x6F, 0x0A, 0xFF]).1 =
      .ok ⟨[0x68, 0x65, 0x6C, 0x6C, 0x6F, 0x0A], 1, true⟩ ∧
    utf8Validate [0x68, 0x65, 0x6C, 0x6C, 0x6F, 0x0A, 0xFF] = some (6, some 1) :=
  claim_C3_bug idPipe rfl rfl

/-! ## `TextReader` (`src/text_reader.rs`)

The control-code / escape-sequence machine is embedded directly.  The
shared character queue with its Stream-Safe + NFC + forbidden-character
iterator (`rc_char_queue.rs` is not under `src/`, and the normalization
iterators come from the external `unicode_normalization` crate) is
modelled from the spec: the queue is a list, and the iterator, once
created, is the reader pipeline applied to the queued scalars, drained
fully before a new one is built (spec section 3 and section 9). -/

/-- Modelled from the spec: `MAX_UTF8_SIZE` from the missing
`unicode.rs` (spec section 6: 4). -/
def maxUtf8Size : Nat := 4

/-- Modelled from the spec: `NORMALIZATION_BUFFER_LEN` from the missing
`unicode.rs`, the queue-drain threshold in scalars. -/
def normalizationBufferLen : Nat := 32

/-- Modelled from the spec: `NORMALIZATION_BUFFER_SIZE` from the missing
`unicode.rs`, the minimum caller buffer in bytes (at least four times
`MAX_UTF8_SIZE`, spec section 4.6). -/
def normalizationBufferSize : Nat := maxUtf8Size * normalizationBufferLen

/-- The control-code / escape-sequence machine states
(`src/text_reader.rs`, `enum State`). -/
inductive MState where
  | ground : Bool → MState
  | cr : MState
  | esc : MState
  | csiStart : MState
  | csi : MState
  | osc : MState
  | linux : MState
deriving DecidableEq

/-- One `Ground`-state transition of `process_raw_string`
(`src/text_reader.rs` lines 123-151), also the target of every
"reprocess" edge.  Returns the next state, the `expect_starter` flag and
the scalars pushed to the queue. -/
def groundStep (P : TextPipe) (es : Bool) (c : Char) : MState × Bool × List Char :=
  if c = Char.ofNat 0xFEFF then (.ground false, es, [])
  else if c = '\n' then (.ground true, es, ['\n'])
  else if c = '\t' then (.ground false, es, ['\t'])
  else if c = Char.ofNat 0x0C then (.ground false, es, [' '])
  else if c = '\r' then (.cr, es, [])
  else if c = Char.ofNat 0x1B then (.esc, es, [])
  else if isControlRust c then (.ground false, es, [Char.ofNat 0xFFFD])
  else if es then (.ground false, false, [if P.isStarter c then c else Char.ofNat 0xFFFD])
  else (.ground false, es, [c])

/-- One transition of the escape/control machine on a scalar, with the
source's "reprocess" edges folded in (they re-enter via `groundStep`). -/
def machineStep (P : TextPipe) (st : MState) (es : Bool) (c : Char) :
    MState × Bool × List Char :=
  match st with
  | .ground _ => groundStep P es c
  | .cr =>
    if c = '\n' then (.ground true, es, ['\n'])
    else
      let r := groundStep P es c
      (r.1, r.2.1, Char.ofNat 0xFFFD :: r.2.2)
  | .esc =>
    if c = '[' then (.csiStart, es, [])
    else if c = ']' then (.osc, es, [])
    else if 0x40 ≤ c.toNat ∧ c.toNat ≤ 0x7E then (.ground false, es, [])
    else groundStep P es c
  | .csiStart =>
    if c = '[' then (.linux, es, [])
    else if 0x20 ≤ c.toNat ∧ c.toNat ≤ 0x3F then (.csi, es, [])
    else if 0x40 ≤ c.toNat ∧ c.toNat ≤ 0x7E then (.ground false, es, [])
    else groundStep P es c
  | .csi =>
    if 0x20 ≤ c.toNat ∧ c.toNat ≤ 0x3F then (.csi, es, [])
    else if 0x40 ≤ c.toNat ∧ c.toNat ≤ 0x7E then (.ground false, es, [])
    else groundStep P es c
  | .osc =>
    if ¬ isControlRust c ∨ c = '\n' ∨ c = '\t' then (.osc, es, [])
    else (.ground false, es, [])
  | .linux =>
    if c.toNat ≤ 0x7F then (.ground false, es, [])
    else groundStep P es c

/-- `process_raw_string`: fold the machine over the scalars read from
the UTF-8 sanitizer, collecting queue pushes. -/
def processChars (P : TextPipe) : MState → Bool → List Char → MState × Bool × List Char
  | st, es, [] => (st, es, [])
  | st, es, c :: rest =>
    let r := machineStep P st es c
    let r2 := processChars P r.1 r.2.1 rest
    (r2.1, r2.2.1, r.2.2 ++ r2.2.2)

/-- State of a `TextReader` over a source with state type `σ`. -/
structure TextReaderState (σ : Type) where
  inner : Utf8ReaderState σ
  queue : List Char
  queueIter : Option (List Char)
  pendingStatus : Status
  expectStarter : Bool
  state : MState

/-- `TextReader::new` over a source state. -/
def textReaderInit {σ : Type} (src : σ) : TextReaderState σ :=
  ⟨⟨src, []⟩, [], none, Status.ready, true, .ground true⟩

/-- `TextReader::queue_next(sequence_end)` from `src/text_reader.rs`.
The iterator is modelled as the pipeline output of the generation of
scalars it was built over; when a live iterator is exhausted while the
queue holds newly pushed scalars, the next generation is built at once
(in the source the live iterator would consume them directly). -/
def queueNext {σ : Type} (P : TextPipe) (seqEnd : Bool) (s : TextReaderState σ) :
    Option Char × TextReaderState σ :=
  if ¬ seqEnd ∧ s.queue.length < normalizationBufferLen then (none, s)
  else
    match s.queueIter with
    | none =>
      if s.queue.isEmpty then (none, s)
      else
        match P.readPipe s.queue with
        | [] => (none, { s with queue := [], queueIter := none })
        | c :: rest => (some c, { s with queue := [], queueIter := some rest })
    | some (c :: rest) => (some c, { s with queueIter := some rest })
    | some [] =>
      if s.queue.isEmpty then (none, { s with queueIter := none })
      else
        match P.readPipe s.queue with
        | [] => (none, { s with queue := [], queueIter := none })
        | c :: rest => (some c, { s with queue := [], queueIter := some rest })

/-- The drain loop of `TextReader::read_outcome` (both phases): pull
normalized scalars while they fit, stopping when the caller buffer
cannot hold another maximum-length scalar.  Returns the accumulated
scalars, the byte count, the state, and whether the stop was due to a
full buffer.  One unit of fuel per pulled scalar. -/
def drainLoopF {σ : Type} (P : TextPipe) (seqEnd : Bool) (bufLen : Nat) :
    Nat → TextReaderState σ → List Char → Nat →
    Option (List Char × Nat × TextReaderState σ × Bool)
  | 0, _, _, _ => none
  | fuel + 1, s, acc, nread =>
    match queueNext P seqEnd s with
    | (none, s') => some (acc, nread, s', false)
    | (some c, s') =>
      let nread' := nread + (utf8EncodeChar c).length
      if bufLen - nread' < maxUtf8Size then some (acc ++ [c], nread', s', true)
      else drainLoopF P seqEnd bufLen fuel s' (acc ++ [c]) nread'

/-- `TextReader::read_outcome` from `src/text_reader.rs`.  Returns the
emitted scalars (the caller buffer receives their UTF-8 encoding) and
the status, plus the post-call state. -/
def textReadOutcome {σ : Type} (M : ReaderModel σ) (P : TextPipe)
    (s : TextReaderState σ) (bufLen : Nat) :
    Except IoErr (List Char × Status) × TextReaderState σ :=
  if bufLen < normalizationBufferSize then (.error .invalidInput, s)
  else
    match drainLoopF P false bufLen (bufLen + 1) s [] 0 with
    | none => (.error .panicked, s)
    | some (acc, nread, s1, full) =>
      if full then (.ok (acc, Status.ready), s1)
      else
        if s1.pendingStatus ≠ Status.ready then
          let s2 := { s1 with pendingStatus := Status.ready, expectStarter := true }
          (.ok (acc, s2.pendingStatus), s2)
        else
          match utf8ReadOutcome M s1.inner 4096 with
          | (.error e, inner') => (.error e, { s1 with inner := inner' })
          | (.ok (bytes, st), inner') =>
            let m := processChars P s1.state s1.expectStarter (charsOfBytes bytes)
            let s2 : TextReaderState σ :=
              { s1 with inner := inner', state := m.1, expectStarter := m.2.1,
                        queue := s1.queue ++ m.2.2 }
            let s3 :=
              if st ≠ Status.ready then
                let s2a :=
                  match s2.state with
                  | .ground _ => s2
                  | .cr =>
                    { s2 with queue := s2.queue ++ [Char.ofNat 0xFFFD], state := .ground false }
                  | _ => { s2 with state := .ground false }
                if st.isEnd ∧ s2a.state ≠ .ground true then
                  { s2a with queue := s2a.queue ++ ['\n'], state := .ground true }
                else s2a
              else s2
            match drainLoopF P (st ≠ Status.ready) bufLen (bufLen + 1) s3 acc nread with
            | none => (.error .panicked, s3)
            | some (acc2, _, s4, _) =>
              if s4.queueIter.isNone then
                let s5 := if st ≠ Status.ready then { s4 with expectStarter := true } else s4
                (.ok (acc2, st), s5)
              else
                (.ok (acc2, Status.ready), { s4 with pendingStatus := st })

/-- Repeated `read_outcome` calls with a fixed caller-buffer size,
concatenating the emitted scalars, until a call reports `End`. -/
def textReadAll {σ : Type} (M : ReaderModel σ) (P : TextPipe) :
    Nat → TextReaderState σ → Nat → Option (List Char)
  | 0, _, _ => none
  | fuel + 1, s, bufLen =>
    match textReadOutcome M P s bufLen with
    | (.ok (chunk, st), s') =>
      if st.isEnd then some chunk
      else
        match textReadAll M P fuel s' bufLen with
        | none => none
        | some rest => some (chunk ++ rest)
    | (.error _, _) => none

/-- Claim C10: `TextReader::read_outcome` with a caller buffer shorter
than `NORMALIZATION_BUFFER_SIZE` returns an invalid-input error and
leaves the entire reader state (queue, iterator, pending status, starter
flag, machine state, inner reader) unchanged: no bytes are consumed from
the source. -/
theorem claim_C10 {σ : Type} (M : ReaderModel σ) (P : TextPipe)
    (s : TextReaderState σ) (bufLen : Nat) (h : bufLen < normalizationBufferSize) :
    textReadOutcome M P s bufLen = (.error .invalidInput, s) := by
  simp [textReadOutcome, h]

/-- Witness for C10: a 16-byte caller buffer over a slice source. -/
theorem claim_C10_witness :
    textReadOutcome sliceModel idPipe (textReaderInit ⟨[0x68, 0x69], false⟩) 16 =
      (.error .invalidInput, textReaderInit ⟨[0x68, 0x69], false⟩) :=
  claim_C10 sliceModel idPipe (textReaderInit ⟨[0x68, 0x69], false⟩) 16 (by decide)

/-- Claim C2 (counter-evidence): on a call whose drain phase finds the
queue empty and the iterator drained while a non-Ready status is parked
in `pending_status`, `read_outcome` clears `pending_status` and sets
`expect_starter` as the claim says, but the status it returns is `Ready`
— not the deferred status — because the source assigns
`self.pending_status = Status::ready()` before building the return value
from that same field. -/
theorem claim_C2_bug {σ : Type} (M : ReaderModel σ) (P : TextPipe)
    (s : TextReaderState σ) (bufLen : Nat)
    (hbuf : normalizationBufferSize ≤ bufLen)
    (hq : s.queue = []) (hi : s.queueIter = none)
    (hp : s.pendingStatus ≠ Status.ready) :
    textReadOutcome M P s bufLen =
      (.ok ([], Status.ready), { s with pendingStatus := Status.ready, expectStarter := true }) := by
  have hnotlt : ¬ bufLen < normalizationBufferSize := by omega
  have hqn : queueNext P false s = (none, s) := by
    simp [queueNext, hq, normalizationBufferLen]
  simp only [textReadOutcome, hnotlt, if_false, drainLoopF, hqn]
  simp [hp]

/-- Witness for C2: a reader over a drained slice whose previous call
parked a `Lull`; the next call returns `Ready` instead of the stored
`Lull`. -/
theorem claim_C2_bug_witness :
    textReadOutcome sliceModel idPipe
      ⟨⟨⟨[], false⟩, []⟩, [], none, Status.opened Readiness.lull, false, .ground false⟩
      normalizationBufferSize =
      (.ok ([], Status.ready),
        ⟨⟨⟨[], false⟩, []⟩, [], none, Status.ready, true, .ground false⟩) :=
  claim_C2_bug sliceModel idPipe
    ⟨⟨⟨[], false⟩, []⟩, [], none, Status.opened Readiness.lull, false, .ground false⟩
    normalizationBufferSize (Nat.le_refl _) rfl rfl (by decide)

/-- Claim C1 (counter-evidence): reading `[0xFF, 0xF0, 0x90, 0x80, 0x80]`
through `Utf8Reader` over a slice source with a 6-byte caller buffer
returns the single chunk `U+FFFD U+FFFD` with `End` — but the lossy
decoding of the input is `U+FFFD` followed by the valid scalar U+10000
(`F0 90 80 80`).  In the second `process_overflow` iteration only
`min(remaining buffer, overflow) = 3` bytes are validated, so the four
remaining overflow bytes classify as an *incomplete* sequence; the
`Replace` arm then clears the whole overflow and emits one U+FFFD,
destroying a valid scalar.  The same input decodes correctly with
caller buffers of 4 or 7 bytes. -/
theorem claim_C1_bug :
    utf8ReadAll sliceModel 5 ⟨⟨[0xFF, 0xF0, 0x90, 0x80, 0x80], false⟩, []⟩ 6 =
      some [replBytes ++ replBytes] ∧
    lossyBytes [0xFF, 0xF0, 0x90, 0x80, 0x80] = replBytes ++ [0xF0, 0x90, 0x80, 0x80] ∧
    (utf8ReadAll sliceModel 5 ⟨⟨[0xFF, 0xF0, 0x90, 0x80, 0x80], false⟩, []⟩ 6).map List.flatten ≠
      some (lossyBytes [0xFF, 0xF0, 0x90, 0x80, 0x80]) := by
  decide

/-! ## Lemmas about the UTF-8 validation functions -/

/-! ## Trailing-newline invariant for `TextReader` (claim C5): helpers -/

theorem getLast_some_ne_nil {α : Type} {l : List α} {x : α}
    (h : l.getLast? = some x) : l ≠ [] := by
  intro hl
  rw [hl] at h
  cases h

theorem getLast_append_right {α : Type} {b : List α} (a : List α) {x : α}
    (h : b.getLast? = some x) : (a ++ b).getLast? = some x := by
  rw [List.getLast?_append_of_ne_nil a (getLast_some_ne_nil h)]
  exact h

theorem getLast_concat {α : Type} (a : List α) (x : α) :
    (a ++ [x]).getLast? = some x :=
  getLast_append_right a rfl

theorem getLast_some_decomp {α : Type} {l : List α} {x : α}
    (h : l.getLast? = some x) : ∃ l', l = l' ++ [x] := by
  induction l with
  | nil => cases h
  | cons y ys ih =>
    match hys : ys with
    | [] =>
      simp only [List.getLast?_singleton, Option.some.injEq] at h
      exact ⟨[], by simp [h]⟩
    | z :: zs =>
      rw [List.getLast?_cons_cons] at h
      obtain ⟨l', hl'⟩ := ih h
      exact ⟨y :: l', by simp [hl']⟩

theorem utf8EncodeChar_nl : utf8EncodeChar (Char.ofNat 10) = [10] := by decide

theorem utf8EncodeList_last_nl {l : List Char} (h : l.getLast? = some '\n') :
    (utf8EncodeList l).getLast? = some 10 := by
  obtain ⟨l', hl'⟩ := getLast_some_decomp h
  subst hl'
  show ((l' ++ ['\n']).map utf8EncodeChar).flatten.getLast? = some 10
  rw [List.map_append, List.flatten_append]
  exact getLast_append_right _ (by decide)

theorem charsOfBytes_ne_nil (b : Nat) (rest : List Nat) :
    charsOfBytes (b :: rest) ≠ [] := by
  rw [charsOfBytes_step]
  cases hsc : seqCheck (b :: rest) <;> simp

theorem processOverflowF_some_len :
    ∀ (fuel avail : Nat) (ov : List Nat) (how : IncompleteHow) {em ov2 : List Nat},
      processOverflowF fuel avail ov how = some (em, ov2) →
      em.length ≤ avail ∧ ov2.length ≤ ov.length := by
  intro fuel
  induction fuel with
  | zero =>
    intro avail ov how em ov2 h
    rw [processOverflowF.eq_def] at h
    cases hv : utf8Validate (ov.take (min avail ov.length)) with
    | none =>
      rw [hv] at h
      simp only [Option.some.injEq, Prod.mk.injEq] at h
      obtain ⟨he, ho⟩ := h
      subst he; subst ho
      constructor
      · simp only [List.length_take]; omega
      · simp only [List.length_drop]; omega
    | some p =>
      obtain ⟨v, elen⟩ := p
      have hb := (utf8Validate_some_bounds hv).1
      simp only [List.length_take] at hb
      rw [hv] at h
      cases elen with
      | some isl =>
        simp only at h
        split at h
        · cases h
        · simp only [Option.some.injEq, Prod.mk.injEq] at h
          obtain ⟨he, ho⟩ := h
          subst he; subst ho
          constructor
          · simp only [List.length_take]; omega
          · simp only [List.length_drop]; omega
      | none =>
        cases how with
        | incReplace =>
          simp only at h
          split at h
          · simp only [Option.some.injEq, Prod.mk.injEq] at h
            obtain ⟨he, ho⟩ := h
            subst he; subst ho
            constructor
            · simp only [List.length_append, List.length_take, replBytes,
                List.length_cons, List.length_nil]
              omega
            · simp
          · split at h
            · cases h
            · simp only [Option.some.injEq, Prod.mk.injEq] at h
              obtain ⟨he, ho⟩ := h
              subst he; subst ho
              constructor
              · simp only [List.length_take]; omega
              · simp only [List.length_drop]; omega
        | incInclude =>
          simp only at h
          split at h
          · simp only [Option.some.injEq, Prod.mk.injEq] at h
            obtain ⟨he, ho⟩ := h
            subst he; subst ho
            constructor
            · simp only [List.length_append, List.length_take, List.length_drop]
              omega
            · simp only [List.length_drop]; omega
          · simp only [Option.some.injEq, Prod.mk.injEq] at h
            obtain ⟨he, ho⟩ := h
            subst he; subst ho
            constructor
            · simp only [List.length_take]; omega
            · simp only [List.length_drop]; omega
        | incExclude =>
          simp only [Option.some.injEq, Prod.mk.injEq] at h
          obtain ⟨he, ho⟩ := h
          subst he; subst ho
          constructor
          · simp only [List.length_take]; omega
          · simp only [List.length_drop]; omega
  | succ fuel ih =>
    intro avail ov how em ov2 h
    rw [processOverflowF.eq_def] at h
    cases hv : utf8Validate (ov.take (min avail ov.length)) with
    | none =>
      rw [hv] at h
      simp only [Option.some.injEq, Prod.mk.injEq] at h
      obtain ⟨he, ho⟩ := h
      subst he; subst ho
      constructor
      · simp only [List.length_take]; omega
      · simp only [List.length_drop]; omega
    | some p =>
      obtain ⟨v, elen⟩ := p
      have hb := (utf8Validate_some_bounds hv).1
      simp only [List.length_take] at hb
      rw [hv] at h
      cases elen with
      | some isl =>
        simp only at h
        split at h
        · rename_i hav
          cases hrec : processOverflowF fuel (avail - v - 3) ((ov.drop v).drop isl) how with
          | none => rw [hrec] at h; cases h
          | some q =>
            obtain ⟨em2, o2⟩ := q
            have hih := ih (avail - v - 3) ((ov.drop v).drop isl) how hrec
            simp only [List.length_drop] at hih
            rw [hrec] at h
            simp only [Option.some.injEq, Prod.mk.injEq] at h
            obtain ⟨he, ho⟩ := h
            subst he; subst ho
            constructor
            · simp only [List.length_append, List.length_take, replBytes,
                List.length_cons, List.length_nil]
              omega
            · omega
        · simp only [Option.some.injEq, Prod.mk.injEq] at h
          obtain ⟨he, ho⟩ := h
          subst he; subst ho
          constructor
          · simp only [List.length_take]; omega
          · simp only [List.length_drop]; omega
      | none =>
        cases how with
        | incReplace =>
          simp only at h
          split at h
          · simp only [Option.some.injEq, Prod.mk.injEq] at h
            obtain ⟨he, ho⟩ := h
            subst he; subst ho
            constructor
            · simp only [List.length_append, List.length_take, replBytes,
                List.length_cons, List.length_nil]
              omega
            · simp
          · split at h
            · cases h
            · simp only [Option.some.injEq, Prod.mk.injEq] at h
              obtain ⟨he, ho⟩ := h
              subst he; subst ho
              constructor
              · simp only [List.length_take]; omega
              · simp only [List.length_drop]; omega
        | incInclude =>
          simp only at h
          split at h
          · simp only [Option.some.injEq, Prod.mk.injEq] at h
            obtain ⟨he, ho⟩ := h
            subst he; subst ho
            constructor
            · simp only [List.length_append, List.length_take, List.length_drop]
              omega
            · simp only [List.length_drop]; omega
          · simp only [Option.some.injEq, Prod.mk.injEq] at h
            obtain ⟨he, ho⟩ := h
            subst he; subst ho
            constructor
            · simp only [List.length_take]; omega
            · simp only [List.length_drop]; omega
        | incExclude =>
          simp only [Option.some.injEq, Prod.mk.injEq] at h
          obtain ⟨he, ho⟩ := h
          subst he; subst ho
          constructor
          · simp only [List.length_take]; omega
          · simp only [List.length_drop]; omega

theorem processOverflowGo_some_len {avail : Nat} {ov : List Nat} {how : IncompleteHow}
    {em ov2 : List Nat} (h : processOverflowGo avail ov how = some (em, ov2)) :
    em.length ≤ avail ∧ ov2.length ≤ ov.length :=
  processOverflowF_some_len ov.length avail ov how h

theorem processOverflowGo_include_ne_nil {avail : Nat} {ov : List Nat}
    {em ov2 : List Nat} (h1 : ov ≠ []) (h2 : ov.length ≤ avail) (h3 : 3 ≤ avail)
    (h : processOverflowGo avail ov .incInclude = some (em, ov2)) : em ≠ [] := by
  rw [processOverflowGo_step] at h
  have hmin : min avail ov.length = ov.length := Nat.min_eq_right h2
  rw [hmin, List.take_length] at h
  cases hv : utf8Validate ov with
  | none =>
    rw [hv] at h
    simp only [Option.some.injEq, Prod.mk.injEq] at h
    rw [← h.1]
    exact h1
  | some p =>
    obtain ⟨v, elen⟩ := p
    have hb := (utf8Validate_some_bounds hv).1
    rw [hv] at h
    cases elen with
    | some isl =>
      simp only at h
      split at h
      · rename_i hav
        cases hrec : processOverflowGo (avail - v - 3) ((ov.drop v).drop isl) .incInclude with
        | none => rw [hrec] at h; cases h
        | some q =>
          obtain ⟨em2, o2⟩ := q
          rw [hrec] at h
          simp only [Option.some.injEq, Prod.mk.injEq] at h
          rw [← h.1]
          simp [replBytes]
      · rename_i hav
        simp only [Option.some.injEq, Prod.mk.injEq] at h
        rw [← h.1]
        have hv1 : 1 ≤ v := by omega
        simp only [ne_eq, List.take_eq_nil_iff, not_or]
        exact ⟨by omega, h1⟩
    | none =>
      simp only at h
      split at h
      · simp only [Option.some.injEq, Prod.mk.injEq] at h
        rw [← h.1]
        rcases Nat.eq_zero_or_pos v with hv0 | hv1
        · subst hv0
          simp only [List.take_zero, List.drop_zero, List.nil_append, Nat.sub_zero]
          rw [Nat.min_eq_right h2, List.take_length]
          exact h1
        · intro hcon
          rcases List.append_eq_nil.mp hcon with ⟨ht, _⟩
          rcases List.take_eq_nil_iff.mp ht with hv0 | hov
          · omega
          · exact h1 hov
      · rename_i hcon
        simp at hcon

theorem utf8Validate_nil : utf8Validate [] = none := rfl

theorem utf8Validate_some_ne_nil {l : List Nat} {p : Nat × Option Nat}
    (h : utf8Validate l = some p) : l ≠ [] := by
  intro hl
  rw [hl, utf8Validate_nil] at h
  cases h

theorem readyOrNot_cases (b : Bool) :
    Status.readyOrNot b = Status.ready ∨ Status.readyOrNot b = Status.ended := by
  cases b <;> simp [Status.readyOrNot, Status.ready]

theorem readyOrNot_eq_ended {b : Bool} (h : Status.readyOrNot b = Status.ended) :
    b = false := by
  cases b
  · rfl
  · simp [Status.readyOrNot, Status.ready] at h

theorem utf8Read_tail_facts {nread : List Nat} (hlen : nread.length ≤ 4096)
    (st0 : Status) {v : Nat} {e : Option Nat}
    (hval : utf8Validate nread = some (v, e)) {em ov2 : List Nat}
    (hpo : processOverflowGo (4096 - v) (nread.drop v)
        (if st0.isEnd then IncompleteHow.incReplace else IncompleteHow.incExclude) =
        some (em, ov2)) :
    nread.take v ++ em ≠ [] ∨
      (v = 0 ∧ em = [] ∧ ov2 = nread ∧ st0.isEnd = false) := by
  have hne : nread ≠ [] := utf8Validate_some_ne_nil hval
  rcases Nat.eq_zero_or_pos v with hv0 | hv1
  · subst hv0
    rw [processOverflowGo_step] at hpo
    have hmin : min (4096 - 0) (nread.drop 0).length = (nread.drop 0).length := by
      simp only [List.drop_zero]
      omega
    rw [hmin, List.take_length, List.drop_zero] at hpo
    rw [hval] at hpo
    cases e with
    | some isl =>
      simp only [Nat.sub_zero] at hpo
      rw [if_pos (by omega : 3 ≤ 4096 - 0)] at hpo
      cases hrec : processOverflowGo (4096 - 0 - 3) ((nread.drop 0).drop isl)
          (if st0.isEnd then IncompleteHow.incReplace else IncompleteHow.incExclude) with
      | none => rw [hrec] at hpo; cases hpo
      | some q =>
        obtain ⟨em2, o2⟩ := q
        rw [hrec] at hpo
        simp only [Option.some.injEq, Prod.mk.injEq] at hpo
        left
        rw [← hpo.1]
        simp [replBytes]
    | none =>
      cases hie : st0.isEnd with
      | true =>
        have hhow : (if st0.isEnd then IncompleteHow.incReplace
            else IncompleteHow.incExclude) = IncompleteHow.incReplace := by
          simp [hie]
        rw [hhow] at hpo
        simp only at hpo
        rw [if_pos (by omega : 3 ≤ 4096 - 0 - 0)] at hpo
        simp only [Option.some.injEq, Prod.mk.injEq] at hpo
        left
        rw [← hpo.1]
        simp [replBytes]
      | false =>
        have hhow : (if st0.isEnd then IncompleteHow.incReplace
            else IncompleteHow.incExclude) = IncompleteHow.incExclude := by
          simp [hie]
        rw [hhow] at hpo
        simp only [Option.some.injEq, Prod.mk.injEq] at hpo
        right
        exact ⟨rfl, by simp [← hpo.1], by simp [← hpo.2], rfl⟩
  · left
    intro hcon
    rcases List.append_eq_nil.mp hcon with ⟨ht, _⟩
    rcases List.take_eq_nil_iff.mp ht with hv0 | hov
    · omega
    · exact hne hov

theorem utf8Read_facts {i : Utf8ReaderState SliceReaderState}
    (hend : i.inner.ended = false) (hov : i.overflow.length ≤ 4096)
    {bytes : List Nat} {st : Status} {i' : Utf8ReaderState SliceReaderState}
    (h : utf8ReadOutcome sliceModel i 4096 = (.ok (bytes, st), i')) :
    i'.inner.ended = false ∧ i'.overflow.length ≤ 4096 ∧
    (st = Status.ready ∨ st = Status.ended) ∧
    (st = Status.ended → i'.overflow = [] ∧ i'.inner.slice = []) ∧
    ((i.inner.slice ≠ [] ∨ i.overflow ≠ []) →
      (bytes ≠ [] ∨ (st = Status.ready ∧ (i'.inner.slice ≠ [] ∨ i'.overflow ≠ [])))) := by
  obtain ⟨⟨sl, ed⟩, ov⟩ := i
  simp only at hend hov ⊢
  subst hend
  unfold utf8ReadOutcome at h
  rw [if_neg (by norm_num)] at h
  split at h
  case _ hove =>
    rw [List.isEmpty_iff] at hove
    simp only at hove
    subst hove
    simp only [List.isEmpty_nil, not_true, if_false, sliceModel, sliceReadOutcome,
      List.length_nil, Nat.sub_zero, List.nil_append, Bool.false_eq_true,
      decide_eq_true_eq, show ¬ (4096 = 0) from by norm_num, decide_False,
      Bool.false_or] at h
    cases hval : utf8Validate (List.take 4096 sl) with
    | none =>
      simp only [hval, Prod.mk.injEq, Except.ok.injEq] at h
      obtain ⟨⟨hb, hs⟩, hi⟩ := h
      subst hb; subst hs; subst hi
      refine ⟨rfl, by simp, readyOrNot_cases _, ?_, ?_⟩
      · intro hE
        have := readyOrNot_eq_ended hE
        simp only [Bool.not_eq_false'] at this
        rw [List.isEmpty_iff] at this
        exact ⟨rfl, this⟩
      · intro hin
        left
        rcases hin with hsl | hcon
        · simp only [ne_eq, List.take_eq_nil_iff, not_or]
          exact ⟨by norm_num, hsl⟩
        · exact absurd rfl hcon
    | some p =>
      obtain ⟨v, e⟩ := p
      simp only [hval] at h
      cases hpo : processOverflowGo (4096 - v) (List.drop v (List.take 4096 sl))
          (if (Status.readyOrNot !(List.drop 4096 sl).isEmpty).isEnd = true then
            IncompleteHow.incReplace else IncompleteHow.incExclude) with
      | none =>
        simp only [hpo] at h
        simp at h
      | some q =>
        obtain ⟨em, ov2⟩ := q
        simp only [hpo] at h
        have hlen : (List.take 4096 sl).length ≤ 4096 := by
          simp only [List.length_take]; omega
        have htail := utf8Read_tail_facts hlen (Status.readyOrNot !(List.drop 4096 sl).isEmpty)
          hval hpo
        split at h
        case _ hov2 =>
          rw [List.isEmpty_iff] at hov2
          subst hov2
          simp only [Prod.mk.injEq, Except.ok.injEq] at h
          obtain ⟨⟨hb, hs⟩, hi⟩ := h
          subst hb; subst hs; subst hi
          refine ⟨rfl, by simp, readyOrNot_cases _, ?_, ?_⟩
          · intro hE
            have := readyOrNot_eq_ended hE
            simp only [Bool.not_eq_false'] at this
            rw [List.isEmpty_iff] at this
            exact ⟨rfl, this⟩
          · intro _
            left
            rcases htail with hne | ⟨_, _, htk, _⟩
            · exact hne
            · exact absurd htk.symm (utf8Validate_some_ne_nil hval)
        case _ hov2 =>
          simp only [Prod.mk.injEq, Except.ok.injEq] at h
          obtain ⟨⟨hb, hs⟩, hi⟩ := h
          subst hb; subst hs; subst hi
          have hplen := (processOverflowGo_some_len hpo).2
          refine ⟨rfl, ?_, Or.inl rfl, ?_, ?_⟩
          · simp only [List.length_drop, List.length_take] at hplen ⊢
            omega
          · intro hE
            exact absurd hE (by simp [Status.ready])
          · intro _
            right
            refine ⟨rfl, Or.inr ?_⟩
            simp only [ne_eq, ← List.isEmpty_iff]
            simp only [Bool.not_eq_true] at hov2 ⊢
            exact hov2
  case _ hove =>
    simp only at hove
    have hovne : ov ≠ [] := by
      intro hc
      subst hc
      simp at hove
    simp only [sliceModel, sliceReadOutcome, Bool.false_eq_true, if_false] at h
    cases hpo1 : processOverflowGo 4096 ov IncompleteHow.incInclude with
    | none =>
      simp only [hpo1] at h
      simp at h
    | some q =>
      obtain ⟨out0, ov0⟩ := q
      simp only [hpo1] at h
      have hout0 : out0 ≠ [] :=
        processOverflowGo_include_ne_nil hovne hov (by norm_num) hpo1
      have h0len := processOverflowGo_some_len hpo1
      split at h
      case _ hov0 =>
        simp only [Prod.mk.injEq, Except.ok.injEq] at h
        obtain ⟨⟨hb, hs⟩, hi⟩ := h
        subst hb; subst hs; subst hi
        refine ⟨rfl, by simp only; omega, Or.inl rfl, ?_, ?_⟩
        · intro hE
          exact absurd hE (by simp [Status.ready])
        · intro _
          left
          exact hout0
      case _ hov0 =>
        have hov0e : ov0 = [] := by
          rw [not_not, List.isEmpty_iff] at hov0
          exact hov0
        subst hov0e
        cases hval : utf8Validate (out0 ++ List.take (4096 - out0.length) sl) with
        | none =>
          simp only [hval, Prod.mk.injEq, Except.ok.injEq] at h
          obtain ⟨⟨hb, hs⟩, hi⟩ := h
          subst hb; subst hs; subst hi
          refine ⟨rfl, by simp, readyOrNot_cases _, ?_, ?_⟩
          · intro hE
            have hB := readyOrNot_eq_ended hE
            rw [Bool.or_eq_false_iff] at hB
            have := hB.2
            simp only [Bool.not_eq_false'] at this
            rw [List.isEmpty_iff] at this
            exact ⟨rfl, this⟩
          · intro _
            left
            intro hc
            rcases List.append_eq_nil.mp hc with ⟨hc1, _⟩
            exact hout0 hc1
        | some p =>
          obtain ⟨v, e⟩ := p
          simp only [hval] at h
          have hlen : (out0 ++ List.take (4096 - out0.length) sl).length ≤ 4096 := by
            simp only [List.length_append, List.length_take]
            omega
          cases hpo : processOverflowGo (4096 - v)
              (List.drop v (out0 ++ List.take (4096 - out0.length) sl))
              (if (Status.readyOrNot (decide (4096 - out0.length = 0) ||
                  !(List.drop (4096 - out0.length) sl).isEmpty)).isEnd = true then
                IncompleteHow.incReplace else IncompleteHow.incExclude) with
          | none =>
            simp only [hpo] at h
            simp at h
          | some q2 =>
            obtain ⟨em, ov2⟩ := q2
            simp only [hpo] at h
            have htail := utf8Read_tail_facts hlen
              (Status.readyOrNot (decide (4096 - out0.length = 0) ||
                !(List.drop (4096 - out0.length) sl).isEmpty)) hval hpo
            split at h
            case _ hov2 =>
              rw [List.isEmpty_iff] at hov2
              subst hov2
              simp only [Prod.mk.injEq, Except.ok.injEq] at h
              obtain ⟨⟨hb, hs⟩, hi⟩ := h
              subst hb; subst hs; subst hi
              refine ⟨rfl, by simp, readyOrNot_cases _, ?_, ?_⟩
              · intro hE
                have hB := readyOrNot_eq_ended hE
                rw [Bool.or_eq_false_iff] at hB
                have := hB.2
                simp only [Bool.not_eq_false'] at this
                rw [List.isEmpty_iff] at this
                exact ⟨rfl, this⟩
              · intro _
                left
                rcases htail with hne | ⟨_, _, htk, _⟩
                · exact hne
                · exact absurd htk.symm (utf8Validate_some_ne_nil hval)
            case _ hov2 =>
              simp only [Prod.mk.injEq, Except.ok.injEq] at h
              obtain ⟨⟨hb, hs⟩, hi⟩ := h
              subst hb; subst hs; subst hi
              have hplen := (processOverflowGo_some_len hpo).2
              refine ⟨rfl, ?_, Or.inl rfl, ?_, ?_⟩
              · simp only [List.length_drop] at hplen ⊢
                omega
              · intro hE
                exact absurd hE (by simp [Status.ready])
              · intro _
                right
                refine ⟨rfl, Or.inr ?_⟩
                simp only [ne_eq, ← List.isEmpty_iff]
                simp only [Bool.not_eq_true] at hov2 ⊢
                exact hov2

theorem utf8Read_empty :
    utf8ReadOutcome sliceModel ⟨⟨[], false⟩, []⟩ 4096 =
      (.ok ([], Status.ended), ⟨⟨[], false⟩, []⟩) := rfl

theorem prodEta3 {α β γ : Type} (p : α × β × γ) : p = (p.1, p.2.1, p.2.2) := rfl

theorem groundStep_ground_true {P : TextPipe} {es : Bool} {c : Char} {es' : Bool}
    {out : List Char} (h : groundStep P es c = (.ground true, es', out)) :
    out.getLast? = some '\n' := by
  simp only [groundStep] at h
  split_ifs at h <;> simp only [Prod.mk.injEq] at h <;>
    first
      | (rw [← h.2.2]; rfl)
      | exact absurd h.1 (by simp)

theorem machineStep_ground_true {P : TextPipe} {st : MState} {es : Bool} {c : Char}
    {es' : Bool} {out : List Char}
    (h : machineStep P st es c = (.ground true, es', out)) :
    out.getLast? = some '\n' := by
  cases st with
  | ground g =>
    simp only [machineStep] at h
    exact groundStep_ground_true h
  | cr =>
    simp only [machineStep] at h
    split_ifs at h with hc
    · simp only [Prod.mk.injEq] at h
      rw [← h.2.2]
      rfl
    · simp only [Prod.mk.injEq] at h
      obtain ⟨h1, _, h3⟩ := h
      have hgs := prodEta3 (groundStep P es c)
      rw [h1] at hgs
      have hlast := groundStep_ground_true hgs
      rw [← h3]
      cases hgs2 : (groundStep P es c).2.2 with
      | nil => rw [hgs2] at hlast; cases hlast
      | cons x xs =>
        rw [hgs2] at hlast
        rw [show (Char.ofNat 0xFFFD :: x :: xs).getLast? = (x :: xs).getLast? from rfl]
        exact hlast
  | esc =>
    simp only [machineStep] at h
    split_ifs at h <;>
      first
        | (simp only [Prod.mk.injEq] at h; exact absurd h.1 (by simp))
        | exact groundStep_ground_true h
  | csiStart =>
    simp only [machineStep] at h
    split_ifs at h <;>
      first
        | (simp only [Prod.mk.injEq] at h; exact absurd h.1 (by simp))
        | exact groundStep_ground_true h
  | csi =>
    simp only [machineStep] at h
    split_ifs at h <;>
      first
        | (simp only [Prod.mk.injEq] at h; exact absurd h.1 (by simp))
        | exact groundStep_ground_true h
  | osc =>
    simp only [machineStep] at h
    split_ifs at h <;>
      (simp only [Prod.mk.injEq] at h; exact absurd h.1 (by simp))
  | linux =>
    simp only [machineStep] at h
    split_ifs at h <;>
      first
        | (simp only [Prod.mk.injEq] at h; exact absurd h.1 (by simp))
        | exact groundStep_ground_true h

theorem processChars_ground_true {P : TextPipe} :
    ∀ {cs : List Char} {st : MState} {es : Bool} {st' : MState} {es' : Bool}
      {out : List Char},
      processChars P st es cs = (st', es', out) → st' = .ground true →
      (cs = [] ∧ st = .ground true ∧ out = []) ∨ out.getLast? = some '\n' := by
  intro cs
  induction cs with
  | nil =>
    intro st es st' es' out h hg
    simp only [processChars, Prod.mk.injEq] at h
    exact Or.inl ⟨rfl, h.1.trans hg, h.2.2.symm⟩
  | cons c rest ih =>
    intro st es st' es' out h hg
    simp only [processChars, Prod.mk.injEq] at h
    obtain ⟨h1, h2, h3⟩ := h
    right
    have hr2 := prodEta3 (processChars P (machineStep P st es c).1
      (machineStep P st es c).2.1 rest)
    rw [h1, h2] at hr2
    rcases ih hr2 hg with ⟨hrnil, hrst, hrout⟩ | hrlast
    · have hms := prodEta3 (machineStep P st es c)
      rw [hrst] at hms
      have hlast := machineStep_ground_true hms
      rw [← h3, hrout, List.append_nil]
      exact hlast
    · rw [← h3]
      exact getLast_append_right _ hrlast

/-- Proof-side predicate: the reader holds no undrained scalars (empty
queue, iterator absent or exhausted). -/
def residEmpty {σ : Type} (s : TextReaderState σ) : Prop :=
  s.queue = [] ∧ (s.queueIter = none ∨ s.queueIter = some [])

/-- Proof-side predicate: the undrained scalars of the reader end with a
newline (a nonempty queue ending in a newline, or an empty queue with a
live, nonempty iterator whose remaining output ends in a newline). -/
def nlRes {σ : Type} (s : TextReaderState σ) : Prop :=
  (s.queue ≠ [] ∧ s.queue.getLast? = some '\n') ∨
  (s.queue = [] ∧ ∃ it, s.queueIter = some it ∧ it ≠ [] ∧ it.getLast? = some '\n')

theorem pipeGen_ne_nil {P : TextPipe}
    (hNl : ∀ l, P.readPipe (l ++ ['\n']) = P.readPipe l ++ ['\n'])
    {q : List Char} (hlast : q.getLast? = some '\n') : P.readPipe q ≠ [] := by
  obtain ⟨q', hq'⟩ := getLast_some_decomp hlast
  rw [hq', hNl q']
  simp

theorem pipeGen_last {P : TextPipe}
    (hNl : ∀ l, P.readPipe (l ++ ['\n']) = P.readPipe l ++ ['\n'])
    {q : List Char} (hlast : q.getLast? = some '\n') {c0 : Char} {rest : List Char}
    (hrp : P.readPipe q = c0 :: rest) : (c0 :: rest).getLast? = some '\n' := by
  obtain ⟨q', hq'⟩ := getLast_some_decomp hlast
  rw [← hrp, hq', hNl q']
  exact getLast_concat _ _

theorem queueNext_fields {σ : Type} (P : TextPipe) (se : Bool) (s : TextReaderState σ) :
    (queueNext P se s).2.inner = s.inner ∧
    (queueNext P se s).2.pendingStatus = s.pendingStatus ∧
    (queueNext P se s).2.expectStarter = s.expectStarter ∧
    (queueNext P se s).2.state = s.state := by
  unfold queueNext
  repeat' split
  all_goals exact ⟨rfl, rfl, rfl, rfl⟩

theorem queueNext_some_iter {σ : Type} {P : TextPipe} {se : Bool}
    {s : TextReaderState σ} {c : Char} {s' : TextReaderState σ}
    (h : queueNext P se s = (some c, s')) : ∃ it, s'.queueIter = some it := by
  unfold queueNext at h
  split at h
  · simp at h
  · split at h
    · split at h
      · simp at h
      · split at h
        · simp at h
        · simp only [Prod.mk.injEq] at h
          rw [← h.2]
          exact ⟨_, rfl⟩
    · simp only [Prod.mk.injEq] at h
      rw [← h.2]
      exact ⟨_, rfl⟩
    · split at h
      · simp at h
      · split at h
        · simp at h
        · simp only [Prod.mk.injEq] at h
          rw [← h.2]
          exact ⟨_, rfl⟩

theorem queueNext_none_of_nl {σ : Type} {P : TextPipe}
    (hNl : ∀ l, P.readPipe (l ++ ['\n']) = P.readPipe l ++ ['\n'])
    {se : Bool} {s : TextReaderState σ} {s' : TextReaderState σ}
    (hnl : nlRes s) (h : queueNext P se s = (none, s')) : s' = s ∧ se = false := by
  unfold queueNext at h
  split at h
  case _ hth =>
    simp only [Prod.mk.injEq] at h
    refine ⟨h.2.symm, ?_⟩
    rcases hth with ⟨hse, _⟩
    simpa using hse
  case _ hth =>
    split at h
    case _ hqi =>
      rcases hnl with ⟨hqne, hqlast⟩ | ⟨_, it, hit, _, _⟩
      · split at h
        case _ hqe => exact absurd (List.isEmpty_iff.mp hqe) hqne
        case _ =>
          split at h
          case _ hrp => exact absurd hrp (pipeGen_ne_nil hNl hqlast)
          case _ => simp at h
      · rw [hqi] at hit; cases hit
    case _ c rest hqi =>
      simp at h
    case _ hqi =>
      rcases hnl with ⟨hqne, hqlast⟩ | ⟨_, it, hit, hitne, _⟩
      · split at h
        case _ hqe => exact absurd (List.isEmpty_iff.mp hqe) hqne
        case _ =>
          split at h
          case _ hrp => exact absurd hrp (pipeGen_ne_nil hNl hqlast)
          case _ => simp at h
      · rw [hqi] at hit
        cases hit
        exact absurd rfl hitne

theorem queueNext_some_of_nl {σ : Type} {P : TextPipe}
    (hNl : ∀ l, P.readPipe (l ++ ['\n']) = P.readPipe l ++ ['\n'])
    {se : Bool} {s : TextReaderState σ} {c : Char} {s' : TextReaderState σ}
    (hnl : nlRes s) (h : queueNext P se s = (some c, s')) :
    nlRes s' ∨ (c = '\n' ∧ residEmpty s') := by
  unfold queueNext at h
  split at h
  · simp at h
  · split at h
    case _ hqi =>
      rcases hnl with ⟨hqne, hqlast⟩ | ⟨_, it, hit, _, _⟩
      · split at h
        case _ hqe => simp at h
        case _ =>
          split at h
          case _ hrp => simp at h
          case _ c0 rest hrp =>
            have hlast2 := pipeGen_last hNl hqlast hrp
            simp only [Prod.mk.injEq, Option.some.injEq] at h
            obtain ⟨hc, hs'⟩ := h
            cases rest with
            | nil =>
              right
              simp only [List.getLast?_singleton, Option.some.injEq] at hlast2
              refine ⟨by rw [← hc, hlast2], ?_⟩
              rw [← hs']
              exact ⟨rfl, Or.inr rfl⟩
            | cons x xs =>
              left
              right
              rw [← hs']
              refine ⟨rfl, x :: xs, rfl, by simp, ?_⟩
              rw [show (x :: xs).getLast? = (c0 :: x :: xs).getLast? from rfl]
              exact hlast2
      · rw [hqi] at hit; cases hit
    case _ c0 rest hqi =>
      simp only [Prod.mk.injEq, Option.some.injEq] at h
      obtain ⟨hc, hs'⟩ := h
      rcases hnl with ⟨hqne, hqlast⟩ | ⟨hq, it, hit, hitne, hitlast⟩
      · left
        left
        rw [← hs']
        exact ⟨hqne, hqlast⟩
      · rw [hqi] at hit
        cases hit
        cases rest with
        | nil =>
          right
          simp only [List.getLast?_singleton, Option.some.injEq] at hitlast
          refine ⟨by rw [← hc, hitlast], ?_⟩
          rw [← hs']
          exact ⟨hq, Or.inr rfl⟩
        | cons x xs =>
          left
          right
          rw [← hs']
          refine ⟨hq, x :: xs, rfl, by simp, ?_⟩
          rw [show (x :: xs).getLast? = (c0 :: x :: xs).getLast? from rfl]
          exact hitlast
    case _ hqi =>
      rcases hnl with ⟨hqne, hqlast⟩ | ⟨_, it, hit, hitne, _⟩
      · split at h
        case _ hqe => simp at h
        case _ =>
          split at h
          case _ hrp => simp at h
          case _ c0 rest hrp =>
            have hlast2 := pipeGen_last hNl hqlast hrp
            simp only [Prod.mk.injEq, Option.some.injEq] at h
            obtain ⟨hc, hs'⟩ := h
            cases rest with
            | nil =>
              right
              simp only [List.getLast?_singleton, Option.some.injEq] at hlast2
              refine ⟨by rw [← hc, hlast2], ?_⟩
              rw [← hs']
              exact ⟨rfl, Or.inr rfl⟩
            | cons x xs =>
              left
              right
              rw [← hs']
              refine ⟨rfl, x :: xs, rfl, by simp, ?_⟩
              rw [show (x :: xs).getLast? = (c0 :: x :: xs).getLast? from rfl]
              exact hlast2
      · rw [hqi] at hit
        cases hit
        exact absurd rfl hitne

theorem queueNext_of_resid {σ : Type} (P : TextPipe) (se : Bool)
    {s : TextReaderState σ} (hre : residEmpty s) :
    (queueNext P se s).1 = none ∧ residEmpty (queueNext P se s).2 ∧
    (se = true → (queueNext P se s).2.queueIter = none) := by
  obtain ⟨hq, hi⟩ := hre
  unfold queueNext
  cases hse : se with
  | false =>
    rw [if_pos ⟨by simp, by rw [hq]; simp [normalizationBufferLen]⟩]
    exact ⟨rfl, ⟨hq, hi⟩, by intro hc; cases hc⟩
  | true =>
    rw [if_neg (by simp)]
    rcases hi with hi | hi <;> rw [hi]
    · simp only
      rw [if_pos (by rw [hq]; rfl)]
      exact ⟨rfl, ⟨hq, Or.inl hi⟩, fun _ => hi⟩
    · simp only
      rw [if_pos (by rw [hq]; rfl)]
      exact ⟨rfl, ⟨hq, Or.inl rfl⟩, fun _ => rfl⟩

theorem drainLoop_fields {σ : Type} (P : TextPipe) (se : Bool) (bl : Nat) :
    ∀ (fuel : Nat) (s : TextReaderState σ) (acc : List Char) (n : Nat)
      {acc' : List Char} {n' : Nat} {s' : TextReaderState σ} {full : Bool},
      drainLoopF P se bl fuel s acc n = some (acc', n', s', full) →
      s'.inner = s.inner ∧ s'.pendingStatus = s.pendingStatus ∧
      s'.expectStarter = s.expectStarter ∧ s'.state = s.state := by
  intro fuel
  induction fuel with
  | zero =>
    intro s acc n acc' n' s' full h
    cases h
  | succ fuel ih =>
    intro s acc n acc' n' s' full h
    simp only [drainLoopF] at h
    cases hq : queueNext P se s with
    | mk oc s1 =>
      rw [hq] at h
      have hf := queueNext_fields P se s
      rw [hq] at hf
      simp only at hf
      cases oc with
      | none =>
        simp only [Option.some.injEq, Prod.mk.injEq] at h
        obtain ⟨_, _, hs, _⟩ := h
        rw [← hs]
        exact hf
      | some c =>
        simp only at h
        split at h
        · simp only [Option.some.injEq, Prod.mk.injEq] at h
          obtain ⟨_, _, hs, _⟩ := h
          rw [← hs]
          exact hf
        · have := ih s1 (acc ++ [c]) (n + (utf8EncodeChar c).length) h
          refine ⟨this.1.trans hf.1, this.2.1.trans hf.2.1,
            this.2.2.1.trans hf.2.2.1, this.2.2.2.trans hf.2.2.2⟩

theorem drainLoop_of_resid {σ : Type} (P : TextPipe) (se : Bool) (bl fuel : Nat)
    (s : TextReaderState σ) (acc : List Char) (n : Nat)
    {acc' : List Char} {n' : Nat} {s' : TextReaderState σ} {full : Bool}
    (hre : residEmpty s)
    (h : drainLoopF P se bl fuel s acc n = some (acc', n', s', full)) :
    acc' = acc ∧ full = false ∧ residEmpty s' ∧ (se = true → s'.queueIter = none) := by
  cases fuel with
  | zero => cases h
  | succ fuel =>
    simp only [drainLoopF] at h
    have hqn := queueNext_of_resid P se hre
    have heq : queueNext P se s = (none, (queueNext P se s).2) := by
      rw [← hqn.1]
    rw [heq] at h
    simp only [Option.some.injEq, Prod.mk.injEq] at h
    obtain ⟨ha, _, hs, hfull⟩ := h
    exact ⟨ha.symm, hfull.symm, by rw [← hs]; exact hqn.2.1, by rw [← hs]; exact hqn.2.2⟩

theorem drainLoop_of_nl {σ : Type} {P : TextPipe}
    (hNl : ∀ l, P.readPipe (l ++ ['\n']) = P.readPipe l ++ ['\n'])
    (se : Bool) (bl : Nat) :
    ∀ (fuel : Nat) (s : TextReaderState σ) (acc : List Char) (n : Nat)
      {acc' : List Char} {n' : Nat} {s' : TextReaderState σ} {full : Bool},
      nlRes s →
      drainLoopF P se bl fuel s acc n = some (acc', n', s', full) →
      (nlRes s' ∧ (full = true ∨ se = false) ∧
        (full = true → ∃ it, s'.queueIter = some it)) ∨
      (residEmpty s' ∧ acc'.getLast? = some '\n') := by
  intro fuel
  induction fuel with
  | zero =>
    intro s acc n acc' n' s' full hnl h
    cases h
  | succ fuel ih =>
    intro s acc n acc' n' s' full hnl h
    simp only [drainLoopF] at h
    cases hq : queueNext P se s with
    | mk oc s1 =>
      rw [hq] at h
      cases oc with
      | none =>
        simp only [Option.some.injEq, Prod.mk.injEq] at h
        obtain ⟨ha, _, hs, hfull⟩ := h
        obtain ⟨hs1, hse⟩ := queueNext_none_of_nl hNl hnl hq
        left
        refine ⟨by rw [← hs, hs1]; exact hnl, Or.inr hse, ?_⟩
        intro hc
        rw [← hfull] at hc
        cases hc
      | some c =>
        simp only at h
        rcases queueNext_some_of_nl hNl hnl hq with hnl1 | ⟨hc, hre1⟩
        · split at h
          · simp only [Option.some.injEq, Prod.mk.injEq] at h
            obtain ⟨_, _, hs, hfull⟩ := h
            left
            refine ⟨by rw [← hs]; exact hnl1, Or.inl hfull.symm, ?_⟩
            intro _
            rw [← hs]
            exact queueNext_some_iter hq
          · exact ih s1 (acc ++ [c]) (n + (utf8EncodeChar c).length) hnl1 h
        · subst hc
          split at h
          · simp only [Option.some.injEq, Prod.mk.injEq] at h
            obtain ⟨ha, _, hs, _⟩ := h
            right
            refine ⟨by rw [← hs]; exact hre1, ?_⟩
            rw [← ha]
            exact getLast_concat _ _
          · have := drainLoop_of_resid P se bl fuel s1
              (acc ++ ['\n']) (n + (utf8EncodeChar '\n').length) hre1 h
            right
            refine ⟨this.2.2.1, ?_⟩
            rw [this.1]
            exact getLast_concat _ _

/-- Proof-side invariant, "live" phase: the slice source is not marked
ended, the overflow is bounded by the inner read buffer, and either input
remains, or the machine is not in the just-saw-newline ground state, or
the undrained scalars end with a newline. -/
def trLive (s : TextReaderState SliceReaderState) : Prop :=
  s.inner.inner.ended = false ∧ s.inner.overflow.length ≤ 4096 ∧
  (s.inner.inner.slice ≠ [] ∨ s.inner.overflow ≠ [] ∨
    s.state ≠ MState.ground true ∨ nlRes s)

/-- Proof-side invariant, "drained" phase: input exhausted, machine in
the just-saw-newline ground state, nothing left to drain; any further
calls emit nothing. -/
def trDone (s : TextReaderState SliceReaderState) : Prop :=
  s.inner.inner.ended = false ∧ s.inner.inner.slice = [] ∧ s.inner.overflow = [] ∧
  s.state = MState.ground true ∧ residEmpty s

theorem trStep_done {P : TextPipe} {s : TextReaderState SliceReaderState}
    {bufLen : Nat} {chunk : List Char} {st : Status}
    {s' : TextReaderState SliceReaderState}
    (hd : trDone s)
    (h : textReadOutcome sliceModel P s bufLen = (.ok (chunk, st), s')) :
    chunk = [] ∧ (st = Status.ended ∨ (st = Status.ready ∧ trDone s')) := by
  obtain ⟨hend, hsl, hov, hms, hre⟩ := hd
  obtain ⟨⟨⟨sl0, ed0⟩, ov0⟩, q0, qi0, ps0, es0, ms0⟩ := s
  simp only at hend hsl hov hms
  subst hend; subst hsl; subst hov; subst hms
  unfold textReadOutcome at h
  split at h
  · simp at h
  cases hd1 : drainLoopF P false bufLen (bufLen + 1)
      (⟨⟨⟨[], false⟩, []⟩, q0, qi0, ps0, es0, MState.ground true⟩ :
        TextReaderState SliceReaderState) [] 0 with
  | none => rw [hd1] at h; simp at h
  | some r =>
    obtain ⟨acc, n1, s1, full1⟩ := r
    rw [hd1] at h
    have hfields := drainLoop_fields P false bufLen (bufLen + 1) _ [] 0 hd1
    have hdr := drainLoop_of_resid P false bufLen (bufLen + 1) _ [] 0 hre hd1
    obtain ⟨hacc, hfull, hre1, _⟩ := hdr
    subst hacc
    rw [hfull] at h
    simp only [Bool.false_eq_true, if_false] at h
    split at h
    case _ hp =>
      simp only [Prod.mk.injEq, Except.ok.injEq] at h
      obtain ⟨⟨hb, hs⟩, hi⟩ := h
      refine ⟨hb.symm, Or.inr ⟨hs.symm, ?_⟩⟩
      rw [← hi]
      unfold trDone residEmpty
      refine ⟨?_, ?_, ?_, ?_, hre1.1, hre1.2⟩
      · simp only
        rw [hfields.1]
      · simp only
        rw [hfields.1]
      · simp only
        rw [hfields.1]
      · simp only
        rw [hfields.2.2.2]
    case _ hp =>
      have hinner : s1.inner = ⟨⟨[], false⟩, []⟩ := hfields.1
      rw [hinner, utf8Read_empty] at h
      simp only [processChars, charsOfBytes, charsOfBytesF] at h
      rw [hfields.2.2.2] at h
      simp only [show ¬ (Status.ended = Status.ready) from by simp [Status.ready],
        if_true, ne_eq, not_true, if_false, List.append_nil] at h
      simp only [not_false_iff, if_true, and_false, if_false] at h
      split at h
      case _ => simp at h
      case _ acc2 n2 s4 full2 hd2 =>
        have hre3 : residEmpty ({ s1 with
            inner := ({ inner := { slice := [], ended := false }, overflow := [] } :
              Utf8ReaderState SliceReaderState),
            state := MState.ground true } : TextReaderState SliceReaderState) := by
          unfold residEmpty
          exact ⟨hre1.1, hre1.2⟩
        have hdr2 := drainLoop_of_resid _ _ _ _ _ _ _ hre3 hd2
        obtain ⟨hacc2, _, _, hiter⟩ := hdr2
        rw [hiter (by rfl)] at h
        simp only [Option.isNone_none, if_true] at h
        simp only [Prod.mk.injEq, Except.ok.injEq] at h
        obtain ⟨⟨hb, hs⟩, _⟩ := h
        exact ⟨by rw [← hb, hacc2], Or.inl hs.symm⟩

theorem drainLoop_end_wrap {P : TextPipe}
    (hNl : ∀ l, P.readPipe (l ++ ['\n']) = P.readPipe l ++ ['\n'])
    {se : Bool} (hse : se = true)
    {bl fuel : Nat} {s3 : TextReaderState SliceReaderState} {acc : List Char} {n : Nat}
    {acc2 : List Char} {n2 : Nat} {s4 : TextReaderState SliceReaderState} {full2 : Bool}
    (hnl3 : nlRes s3)
    (hd2 : drainLoopF P se bl fuel s3 acc n = some (acc2, n2, s4, full2)) :
    (nlRes s4 ∧ ∃ it, s4.queueIter = some it) ∨
    (residEmpty s4 ∧ acc2.getLast? = some '\n') := by
  rcases drainLoop_of_nl hNl _ bl fuel s3 acc n hnl3 hd2 with ⟨hnl4, hor, hiter⟩ | hres
  · left
    rcases hor with hfull | hse2
    · exact ⟨hnl4, hiter hfull⟩
    · rw [hse] at hse2
      cases hse2
  · right
    exact hres

theorem trLive_of_eq {a b : TextReaderState SliceReaderState}
    (hi : b.inner = a.inner) (hq : b.queue = a.queue) (hqi : b.queueIter = a.queueIter)
    (hst : b.state = a.state) (ha : trLive a) : trLive b := by
  obtain ⟨h1, h2, h3⟩ := ha
  refine ⟨by rw [hi]; exact h1, by rw [hi]; exact h2, ?_⟩
  rcases h3 with hc | hc | hc | hc
  · exact Or.inl (by rw [hi]; exact hc)
  · exact Or.inr (Or.inl (by rw [hi]; exact hc))
  · exact Or.inr (Or.inr (Or.inl (by rw [hst]; exact hc)))
  · refine Or.inr (Or.inr (Or.inr ?_))
    unfold nlRes at hc ⊢
    rw [hq, hqi]
    exact hc

theorem trDone_of_eq {a b : TextReaderState SliceReaderState}
    (hi : b.inner = a.inner) (hq : b.queue = a.queue) (hqi : b.queueIter = a.queueIter)
    (hst : b.state = a.state) (ha : trDone a) : trDone b := by
  obtain ⟨h1, h2, h3, h4, h5⟩ := ha
  refine ⟨by rw [hi]; exact h1, by rw [hi]; exact h2, by rw [hi]; exact h3,
    by rw [hst]; exact h4, ?_⟩
  unfold residEmpty at h5 ⊢
  rw [hq, hqi]
  exact h5

theorem trStep_end_finish {P : TextPipe}
    (hNl : ∀ l, P.readPipe (l ++ ['\n']) = P.readPipe l ++ ['\n'])
    {se : Bool} {bl fuel : Nat} {s3 : TextReaderState SliceReaderState}
    {acc : List Char} {n1 : Nat} {acc2 : List Char} {n2 : Nat}
    {s4 : TextReaderState SliceReaderState} {full2 : Bool}
    (hd2 : drainLoopF P se bl fuel s3 acc n1 = some (acc2, n2, s4, full2))
    (hse : se = true)
    (hgood : nlRes s3 ∨ (residEmpty s3 ∧ acc.getLast? = some '\n'))
    (hst3 : s3.state = MState.ground true)
    (hend3 : s3.inner.inner.ended = false)
    (hsl3 : s3.inner.inner.slice = []) (hov3 : s3.inner.overflow = []) :
    (s4.queueIter = none → acc2.getLast? = some '\n') ∧
    (∀ it, s4.queueIter = some it →
      trLive { s4 with pendingStatus := Status.ended } ∨
      (trDone { s4 with pendingStatus := Status.ended } ∧
        acc2.getLast? = some '\n')) := by
  have hfields4 := drainLoop_fields P se bl fuel s3 acc n1 hd2
  rcases hgood with hnl3 | hre3
  · rcases drainLoop_end_wrap hNl hse hnl3 hd2 with ⟨hnl4, it0, hit0⟩ | ⟨hre4, hacc2⟩
    · constructor
      · intro hnone
        rw [hnone] at hit0
        cases hit0
      · intro it hit
        left
        refine trLive_of_eq (a := s4) rfl rfl rfl rfl ?_
        exact ⟨by rw [hfields4.1]; exact hend3, by rw [hfields4.1, hov3]; simp,
          Or.inr (Or.inr (Or.inr hnl4))⟩
    · constructor
      · intro _
        exact hacc2
      · intro it hit
        right
        refine ⟨?_, hacc2⟩
        refine trDone_of_eq (a := s4) rfl rfl rfl rfl ?_
        exact ⟨by rw [hfields4.1]; exact hend3, by rw [hfields4.1]; exact hsl3,
          by rw [hfields4.1]; exact hov3, by rw [hfields4.2.2.2]; exact hst3, hre4⟩
  · have hdr := drainLoop_of_resid P se bl fuel s3 acc n1 hre3.1 hd2
    obtain ⟨hacc2, _, hre4, hiter⟩ := hdr
    constructor
    · intro _
      rw [hacc2]
      exact hre3.2
    · intro it hit
      rw [hiter hse] at hit
      cases hit

theorem trStep_live {P : TextPipe}
    (hNl : ∀ l, P.readPipe (l ++ ['\n']) = P.readPipe l ++ ['\n'])
    {s : TextReaderState SliceReaderState} {bufLen : Nat}
    {chunk : List Char} {st : Status} {s' : TextReaderState SliceReaderState}
    (hl : trLive s)
    (h : textReadOutcome sliceModel P s bufLen = (.ok (chunk, st), s')) :
    (st = Status.ended ∧ chunk.getLast? = some '\n') ∨
    (st = Status.ready ∧ (trLive s' ∨ (trDone s' ∧ chunk.getLast? = some '\n'))) := by
  obtain ⟨hend, hlen, hdisj⟩ := hl
  obtain ⟨⟨⟨sl0, ed0⟩, ov0⟩, q0, qi0, ps0, es0, ms0⟩ := s
  simp only at hend hlen hdisj
  subst hend
  unfold textReadOutcome at h
  split at h
  · simp at h
  cases hd1 : drainLoopF P false bufLen (bufLen + 1)
      (⟨⟨⟨sl0, false⟩, ov0⟩, q0, qi0, ps0, es0, ms0⟩ :
        TextReaderState SliceReaderState) [] 0 with
  | none => rw [hd1] at h; simp at h
  | some r =>
    obtain ⟨acc, n1, s1, full1⟩ := r
    rw [hd1] at h
    have hfields := drainLoop_fields P false bufLen (bufLen + 1) _ [] 0 hd1
    have hinner1 : s1.inner = ⟨⟨sl0, false⟩, ov0⟩ := hfields.1
    have hstate1 : s1.state = ms0 := hfields.2.2.2
    cases hfull1 : full1 with
    | true =>
      rw [hfull1] at h
      simp only [if_true] at h
      simp only [Prod.mk.injEq, Except.ok.injEq] at h
      obtain ⟨⟨hb, hs⟩, hi⟩ := h
      right
      refine ⟨hs.symm, ?_⟩
      rcases hdisj with hsl | hov | hms | hnl
      · left
        rw [← hi]
        exact ⟨by rw [hinner1], by rw [hinner1]; exact hlen, Or.inl (by rw [hinner1]; exact hsl)⟩
      · left
        rw [← hi]
        exact ⟨by rw [hinner1], by rw [hinner1]; exact hlen,
          Or.inr (Or.inl (by rw [hinner1]; exact hov))⟩
      · left
        rw [← hi]
        exact ⟨by rw [hinner1], by rw [hinner1]; exact hlen,
          Or.inr (Or.inr (Or.inl (by rw [hstate1]; exact hms)))⟩
      · rcases drainLoop_of_nl hNl false bufLen (bufLen + 1) _ [] 0 hnl hd1 with
          ⟨hnl1, _, _⟩ | ⟨hre1, hacc⟩
        · left
          rw [← hi]
          exact ⟨by rw [hinner1], by rw [hinner1]; exact hlen, Or.inr (Or.inr (Or.inr hnl1))⟩
        · by_cases hms0 : ms0 = MState.ground true
          · by_cases hsl0 : sl0 = []
            · by_cases hov0 : ov0 = []
              · right
                rw [← hi, ← hb]
                exact ⟨⟨by rw [hinner1], by rw [hinner1]; exact hsl0,
                  by rw [hinner1]; exact hov0, by rw [hstate1]; exact hms0, hre1⟩, hacc⟩
              · left
                rw [← hi]
                exact ⟨by rw [hinner1], by rw [hinner1]; exact hlen,
                  Or.inr (Or.inl (by rw [hinner1]; exact hov0))⟩
            · left
              rw [← hi]
              exact ⟨by rw [hinner1], by rw [hinner1]; exact hlen,
                Or.inl (by rw [hinner1]; exact hsl0)⟩
          · left
            rw [← hi]
            exact ⟨by rw [hinner1], by rw [hinner1]; exact hlen,
              Or.inr (Or.inr (Or.inl (by rw [hstate1]; exact hms0)))⟩
    | false =>
      rw [hfull1] at h
      simp only [Bool.false_eq_true, if_false] at h
      split at h
      case _ hp =>
        simp only [Prod.mk.injEq, Except.ok.injEq] at h
        obtain ⟨⟨hb, hs⟩, hi⟩ := h
        right
        refine ⟨hs.symm, ?_⟩
        rcases hdisj with hsl | hov | hms | hnl
        · left
          rw [← hi]
          exact ⟨by simp only; rw [hinner1], by simp only; rw [hinner1]; exact hlen,
            Or.inl (by simp only; rw [hinner1]; exact hsl)⟩
        · left
          rw [← hi]
          exact ⟨by simp only; rw [hinner1], by simp only; rw [hinner1]; exact hlen,
            Or.inr (Or.inl (by simp only; rw [hinner1]; exact hov))⟩
        · left
          rw [← hi]
          exact ⟨by simp only; rw [hinner1], by simp only; rw [hinner1]; exact hlen,
            Or.inr (Or.inr (Or.inl (by simp only; rw [hstate1]; exact hms)))⟩
        · rcases drainLoop_of_nl hNl false bufLen (bufLen + 1) _ [] 0 hnl hd1 with
            ⟨hnl1, _, _⟩ | ⟨hre1, hacc⟩
          · left
            rw [← hi]
            refine ⟨by simp only; rw [hinner1], by simp only; rw [hinner1]; exact hlen,
              Or.inr (Or.inr (Or.inr ?_))⟩
            rcases hnl1 with ⟨ha, hb2⟩ | ⟨ha, it, hb2, hc2, hd2⟩
            · exact Or.inl ⟨ha, hb2⟩
            · exact Or.inr ⟨ha, it, hb2, hc2, hd2⟩
          · by_cases hms0 : ms0 = MState.ground true
            · by_cases hsl0 : sl0 = []
              · by_cases hov0 : ov0 = []
                · right
                  rw [← hi, ← hb]
                  refine ⟨⟨by simp only; rw [hinner1], by simp only; rw [hinner1]; exact hsl0,
                    by simp only; rw [hinner1]; exact hov0,
                    by simp only; rw [hstate1]; exact hms0, ?_⟩, hacc⟩
                  exact ⟨hre1.1, hre1.2⟩
                · left
                  rw [← hi]
                  exact ⟨by simp only; rw [hinner1], by simp only; rw [hinner1]; exact hlen,
                    Or.inr (Or.inl (by simp only; rw [hinner1]; exact hov0))⟩
              · left
                rw [← hi]
                exact ⟨by simp only; rw [hinner1], by simp only; rw [hinner1]; exact hlen,
                  Or.inl (by simp only; rw [hinner1]; exact hsl0)⟩
            · left
              rw [← hi]
              exact ⟨by simp only; rw [hinner1], by simp only; rw [hinner1]; exact hlen,
                Or.inr (Or.inr (Or.inl (by simp only; rw [hstate1]; exact hms0)))⟩
      case _ hp =>
        cases hi : utf8ReadOutcome sliceModel s1.inner 4096 with
        | mk res inner2 =>
          rw [hi] at h
          cases res with
          | error e => simp at h
          | ok br =>
            obtain ⟨bytes, st0⟩ := br
            simp only at h
            obtain ⟨hend2, hlen2, hstc, hEndF, hInput⟩ :=
              utf8Read_facts (by rw [hinner1]) (by rw [hinner1]; exact hlen) hi
            cases hm : processChars P s1.state s1.expectStarter (charsOfBytes bytes) with
            | mk m1 mr =>
              obtain ⟨m2, m3⟩ := mr
              rw [hm] at h
              simp only at h
              rcases hstc with hstR | hstE
              · subst hstR
                simp only [ne_eq, not_true, if_false, decide_False, Bool.false_eq_true] at h
                split at h
                case _ hd2 => simp at h
                case _ acc2 n2 s4 full2 hd2 =>
                  have hfields2 := drainLoop_fields P false bufLen (bufLen + 1) _ acc n1 hd2
                  have hs4i : s4.inner = inner2 := hfields2.1
                  have hs4st : s4.state = m1 := hfields2.2.2.2
                  have hconc : trLive s4 ∨ (trDone s4 ∧ acc2.getLast? = some '\n') := by
                    by_cases hpost : inner2.inner.slice = [] ∧ inner2.overflow = []
                    · by_cases hpre : sl0 = [] ∧ ov0 = []
                      · exfalso
                        rw [hpre.1, hpre.2] at hinner1
                        rw [hinner1, utf8Read_empty] at hi
                        simp [Status.ready] at hi
                      · have hbytes : bytes ≠ [] := by
                          rcases hInput (by
                            rw [hinner1]
                            rcases not_and_or.mp hpre with hx | hx
                            · exact Or.inl hx
                            · exact Or.inr hx) with hb | ⟨_, hpost2⟩
                          · exact hb
                          · rcases hpost2 with hx | hx
                            · exact absurd hpost.1 hx
                            · exact absurd hpost.2 hx
                        have hC : charsOfBytes bytes ≠ [] := by
                          cases bytes with
                          | nil => exact absurd rfl hbytes
                          | cons b bs => exact charsOfBytes_ne_nil b bs
                        by_cases hm1 : m1 = MState.ground true
                        · rcases processChars_ground_true hm hm1 with ⟨hcn, _, _⟩ | hm3
                          · exact absurd hcn hC
                          · have hnl2 : nlRes
                                (⟨inner2, s1.queue ++ m3, s1.queueIter, s1.pendingStatus,
                                  m2, m1⟩ : TextReaderState SliceReaderState) := by
                              left
                              constructor
                              · simp only
                                intro hc
                                rcases List.append_eq_nil.mp hc with ⟨_, h3⟩
                                exact (getLast_some_ne_nil hm3) h3
                              · simp only
                                exact getLast_append_right _ hm3
                            rcases drainLoop_of_nl hNl false bufLen (bufLen + 1) _ acc n1
                                hnl2 hd2 with ⟨hnl4, _, _⟩ | ⟨hre4, hacc2⟩
                            · left
                              exact ⟨by rw [hs4i]; exact hend2, by rw [hs4i]; exact hlen2,
                                Or.inr (Or.inr (Or.inr hnl4))⟩
                            · right
                              exact ⟨⟨by rw [hs4i]; exact hend2, by rw [hs4i]; exact hpost.1,
                                by rw [hs4i]; exact hpost.2, by rw [hs4st]; exact hm1, hre4⟩,
                                hacc2⟩
                        · left
                          exact ⟨by rw [hs4i]; exact hend2, by rw [hs4i]; exact hlen2,
                            Or.inr (Or.inr (Or.inl (by rw [hs4st]; exact hm1)))⟩
                    · left
                      rcases not_and_or.mp hpost with hx | hx
                      · exact ⟨by rw [hs4i]; exact hend2, by rw [hs4i]; exact hlen2,
                          Or.inl (by rw [hs4i]; exact hx)⟩
                      · exact ⟨by rw [hs4i]; exact hend2, by rw [hs4i]; exact hlen2,
                          Or.inr (Or.inl (by rw [hs4i]; exact hx))⟩
                  split at h
                  case _ hisn =>
                    simp only [Prod.mk.injEq, Except.ok.injEq] at h
                    obtain ⟨⟨hb, hs⟩, hi2⟩ := h
                    right
                    refine ⟨hs.symm, ?_⟩
                    rcases hconc with hlv | ⟨hdn, hacc2⟩
                    · exact Or.inl (by rw [← hi2]; exact hlv)
                    · exact Or.inr ⟨by rw [← hi2]; exact hdn, by rw [← hb]; exact hacc2⟩
                  case _ hisn =>
                    simp only [Prod.mk.injEq, Except.ok.injEq] at h
                    obtain ⟨⟨hb, hs⟩, hi2⟩ := h
                    right
                    refine ⟨hs.symm, ?_⟩
                    rcases hconc with hlv | ⟨hdn, hacc2⟩
                    · refine Or.inl ?_
                      rw [← hi2]
                      exact trLive_of_eq (a := s4) rfl rfl rfl rfl hlv
                    · refine Or.inr ⟨?_, by rw [← hb]; exact hacc2⟩
                      rw [← hi2]
                      exact trDone_of_eq (a := s4) rfl rfl rfl rfl hdn
              · subst hstE
                simp only [ne_eq,
                  show ¬ (Status.ended = Status.ready) from by simp [Status.ready],
                  not_false_iff, decide_True, if_true,
                  show Status.ended.isEnd = true from rfl, true_and] at h
                cases m1 with
                | ground a =>
                  simp only at h
                  cases a with
                  | true =>
                    rw [if_neg (show ¬ ¬ (MState.ground true = MState.ground true) from by
                      simp)] at h
                    have hgood : nlRes
                        (⟨inner2, s1.queue ++ m3, s1.queueIter, s1.pendingStatus,
                          m2, MState.ground true⟩ : TextReaderState SliceReaderState) ∨
                        (residEmpty
                          (⟨inner2, s1.queue ++ m3, s1.queueIter, s1.pendingStatus,
                            m2, MState.ground true⟩ : TextReaderState SliceReaderState) ∧
                          acc.getLast? = some '\n') := by
                      rcases processChars_ground_true hm rfl with ⟨hcn, hs1g, hm3nil⟩ | hm3
                      · have hbytes : bytes = [] := by
                          cases hbb : bytes with
                          | nil => rfl
                          | cons b bs =>
                            rw [hbb] at hcn
                            exact absurd hcn (charsOfBytes_ne_nil b bs)
                        by_cases hpre : sl0 = [] ∧ ov0 = []
                        · have hms0g : ms0 = MState.ground true := by
                            rw [← hstate1]
                            exact hs1g
                          rcases hdisj with hx | hx | hx | hnl0
                          · exact absurd hpre.1 hx
                          · exact absurd hpre.2 hx
                          · exact absurd hms0g hx
                          · rcases drainLoop_of_nl hNl false bufLen (bufLen + 1) _ [] 0
                                hnl0 hd1 with ⟨hnl1, _, _⟩ | ⟨hre1, hacc1⟩
                            · left
                              unfold nlRes at hnl1 ⊢
                              simp only [hm3nil, List.append_nil]
                              exact hnl1
                            · right
                              refine ⟨?_, hacc1⟩
                              unfold residEmpty at hre1 ⊢
                              simp only [hm3nil, List.append_nil]
                              exact hre1
                        · exfalso
                          rcases hInput (by
                            rw [hinner1]
                            rcases not_and_or.mp hpre with hx | hx
                            · exact Or.inl hx
                            · exact Or.inr hx) with hb | ⟨hrd, _⟩
                          · exact hb hbytes
                          · exact absurd hrd (by simp [Status.ready])
                      · left
                        left
                        constructor
                        · simp only
                          intro hc
                          rcases List.append_eq_nil.mp hc with ⟨_, h3⟩
                          exact (getLast_some_ne_nil hm3) h3
                        · simp only
                          exact getLast_append_right _ hm3
                    split at h
                    case _ => simp at h
                    case _ acc2 n2 s4 full2 hd2 =>
                      have hfin := trStep_end_finish hNl hd2 rfl hgood rfl hend2
                        (hEndF rfl).2 (hEndF rfl).1
                      cases hqi4 : s4.queueIter with
                      | none =>
                        rw [hqi4] at h
                        simp only [Option.isNone_none, if_true] at h
                        simp only [Prod.mk.injEq, Except.ok.injEq] at h
                        obtain ⟨⟨hb, hs⟩, _⟩ := h
                        left
                        exact ⟨hs.symm, by rw [← hb]; exact hfin.1 hqi4⟩
                      | some it =>
                        rw [hqi4] at h
                        simp only [Option.isNone_some, Bool.false_eq_true, if_false] at h
                        simp only [Prod.mk.injEq, Except.ok.injEq] at h
                        obtain ⟨⟨hb, hs⟩, hi2⟩ := h
                        right
                        refine ⟨hs.symm, ?_⟩
                        rcases hfin.2 it hqi4 with hlv | ⟨hdn, hacc3⟩
                        · left
                          rw [← hi2]
                          exact trLive_of_eq (a := { s4 with pendingStatus := Status.ended })
                            rfl rfl hqi4.symm rfl hlv
                        · right
                          refine ⟨?_, by rw [← hb]; exact hacc3⟩
                          rw [← hi2]
                          exact trDone_of_eq (a := { s4 with pendingStatus := Status.ended })
                            rfl rfl hqi4.symm rfl hdn
                  | false =>
                    rw [if_pos (show ¬ (MState.ground false = MState.ground true) from by
                      simp)] at h
                    split at h
                    case _ => simp at h
                    case _ acc2 n2 s4 full2 hd2 =>
                      have hfin := trStep_end_finish hNl hd2 rfl (Or.inl (Or.inl (And.intro (by
                                              intro hc
                                              rcases List.append_eq_nil.mp hc with ⟨_, h3⟩
                                              cases h3) (getLast_concat _ _)))) rfl hend2
                        (hEndF rfl).2 (hEndF rfl).1
                      cases hqi4 : s4.queueIter with
                      | none =>
                        rw [hqi4] at h
                        simp only [Option.isNone_none, if_true] at h
                        simp only [Prod.mk.injEq, Except.ok.injEq] at h
                        obtain ⟨⟨hb, hs⟩, _⟩ := h
                        left
                        exact ⟨hs.symm, by rw [← hb]; exact hfin.1 hqi4⟩
                      | some it =>
                        rw [hqi4] at h
                        simp only [Option.isNone_some, Bool.false_eq_true, if_false] at h
                        simp only [Prod.mk.injEq, Except.ok.injEq] at h
                        obtain ⟨⟨hb, hs⟩, hi2⟩ := h
                        right
                        refine ⟨hs.symm, ?_⟩
                        rcases hfin.2 it hqi4 with hlv | ⟨hdn, hacc3⟩
                        · left
                          rw [← hi2]
                          exact trLive_of_eq (a := { s4 with pendingStatus := Status.ended })
                            rfl rfl hqi4.symm rfl hlv
                        · right
                          refine ⟨?_, by rw [← hb]; exact hacc3⟩
                          rw [← hi2]
                          exact trDone_of_eq (a := { s4 with pendingStatus := Status.ended })
                            rfl rfl hqi4.symm rfl hdn
                | cr =>
                  simp only at h
                  rw [if_pos (show ¬ (MState.ground false = MState.ground true) from by
                    simp)] at h
                  split at h
                  case _ => simp at h
                  case _ acc2 n2 s4 full2 hd2 =>
                    have hfin := trStep_end_finish hNl hd2 rfl (Or.inl (Or.inl (And.intro (by
                                          intro hc
                                          rcases List.append_eq_nil.mp hc with ⟨_, h3⟩
                                          cases h3) (getLast_concat _ _)))) rfl hend2
                      (hEndF rfl).2 (hEndF rfl).1
                    cases hqi4 : s4.queueIter with
                    | none =>
                      rw [hqi4] at h
                      simp only [Option.isNone_none, if_true] at h
                      simp only [Prod.mk.injEq, Except.ok.injEq] at h
                      obtain ⟨⟨hb, hs⟩, _⟩ := h
                      left
                      exact ⟨hs.symm, by rw [← hb]; exact hfin.1 hqi4⟩
                    | some it =>
                      rw [hqi4] at h
                      simp only [Option.isNone_some, Bool.false_eq_true, if_false] at h
                      simp only [Prod.mk.injEq, Except.ok.injEq] at h
                      obtain ⟨⟨hb, hs⟩, hi2⟩ := h
                      right
                      refine ⟨hs.symm, ?_⟩
                      rcases hfin.2 it hqi4 with hlv | ⟨hdn, hacc3⟩
                      · left
                        rw [← hi2]
                        exact trLive_of_eq (a := { s4 with pendingStatus := Status.ended })
                          rfl rfl hqi4.symm rfl hlv
                      · right
                        refine ⟨?_, by rw [← hb]; exact hacc3⟩
                        rw [← hi2]
                        exact trDone_of_eq (a := { s4 with pendingStatus := Status.ended })
                          rfl rfl hqi4.symm rfl hdn
                | esc =>
                  simp only at h
                  rw [if_pos (show ¬ (MState.ground false = MState.ground true) from by
                    simp)] at h
                  split at h
                  case _ => simp at h
                  case _ acc2 n2 s4 full2 hd2 =>
                    have hfin := trStep_end_finish hNl hd2 rfl (Or.inl (Or.inl (And.intro (by
                                          intro hc
                                          rcases List.append_eq_nil.mp hc with ⟨_, h3⟩
                                          cases h3) (getLast_concat _ _)))) rfl hend2
                      (hEndF rfl).2 (hEndF rfl).1
                    cases hqi4 : s4.queueIter with
                    | none =>
                      rw [hqi4] at h
                      simp only [Option.isNone_none, if_true] at h
                      simp only [Prod.mk.injEq, Except.ok.injEq] at h
                      obtain ⟨⟨hb, hs⟩, _⟩ := h
                      left
                      exact ⟨hs.symm, by rw [← hb]; exact hfin.1 hqi4⟩
                    | some it =>
                      rw [hqi4] at h
                      simp only [Option.isNone_some, Bool.false_eq_true, if_false] at h
                      simp only [Prod.mk.injEq, Except.ok.injEq] at h
                      obtain ⟨⟨hb, hs⟩, hi2⟩ := h
                      right
                      refine ⟨hs.symm, ?_⟩
                      rcases hfin.2 it hqi4 with hlv | ⟨hdn, hacc3⟩
                      · left
                        rw [← hi2]
                        exact trLive_of_eq (a := { s4 with pendingStatus := Status.ended })
                          rfl rfl hqi4.symm rfl hlv
                      · right
                        refine ⟨?_, by rw [← hb]; exact hacc3⟩
                        rw [← hi2]
                        exact trDone_of_eq (a := { s4 with pendingStatus := Status.ended })
                          rfl rfl hqi4.symm rfl hdn
                | csiStart =>
                  simp only at h
                  rw [if_pos (show ¬ (MState.ground false = MState.ground true) from by
                    simp)] at h
                  split at h
                  case _ => simp at h
                  case _ acc2 n2 s4 full2 hd2 =>
                    have hfin := trStep_end_finish hNl hd2 rfl (Or.inl (Or.inl (And.intro (by
                                          intro hc
                                          rcases List.append_eq_nil.mp hc with ⟨_, h3⟩
                                          cases h3) (getLast_concat _ _)))) rfl hend2
                      (hEndF rfl).2 (hEndF rfl).1
                    cases hqi4 : s4.queueIter with
                    | none =>
                      rw [hqi4] at h
                      simp only [Option.isNone_none, if_true] at h
                      simp only [Prod.mk.injEq, Except.ok.injEq] at h
                      obtain ⟨⟨hb, hs⟩, _⟩ := h
                      left
                      exact ⟨hs.symm, by rw [← hb]; exact hfin.1 hqi4⟩
                    | some it =>
                      rw [hqi4] at h
                      simp only [Option.isNone_some, Bool.false_eq_true, if_false] at h
                      simp only [Prod.mk.injEq, Except.ok.injEq] at h
                      obtain ⟨⟨hb, hs⟩, hi2⟩ := h
                      right
                      refine ⟨hs.symm, ?_⟩
                      rcases hfin.2 it hqi4 with hlv | ⟨hdn, hacc3⟩
                      · left
                        rw [← hi2]
                        exact trLive_of_eq (a := { s4 with pendingStatus := Status.ended })
                          rfl rfl hqi4.symm rfl hlv
                      · right
                        refine ⟨?_, by rw [← hb]; exact hacc3⟩
                        rw [← hi2]
                        exact trDone_of_eq (a := { s4 with pendingStatus := Status.ended })
                          rfl rfl hqi4.symm rfl hdn
                | csi =>
                  simp only at h
                  rw [if_pos (show ¬ (MState.ground false = MState.ground true) from by
                    simp)] at h
                  split at h
                  case _ => simp at h
                  case _ acc2 n2 s4 full2 hd2 =>
                    have hfin := trStep_end_finish hNl hd2 rfl (Or.inl (Or.inl (And.intro (by
                                          intro hc
                                          rcases List.append_eq_nil.mp hc with ⟨_, h3⟩
                                          cases h3) (getLast_concat _ _)))) rfl hend2
                      (hEndF rfl).2 (hEndF rfl).1
                    cases hqi4 : s4.queueIter with
                    | none =>
                      rw [hqi4] at h
                      simp only [Option.isNone_none, if_true] at h
                      simp only [Prod.mk.injEq, Except.ok.injEq] at h
                      obtain ⟨⟨hb, hs⟩, _⟩ := h
                      left
                      exact ⟨hs.symm, by rw [← hb]; exact hfin.1 hqi4⟩
                    | some it =>
                      rw [hqi4] at h
                      simp only [Option.isNone_some, Bool.false_eq_true, if_false] at h
                      simp only [Prod.mk.injEq, Except.ok.injEq] at h
                      obtain ⟨⟨hb, hs⟩, hi2⟩ := h
                      right
                      refine ⟨hs.symm, ?_⟩
                      rcases hfin.2 it hqi4 with hlv | ⟨hdn, hacc3⟩
                      · left
                        rw [← hi2]
                        exact trLive_of_eq (a := { s4 with pendingStatus := Status.ended })
                          rfl rfl hqi4.symm rfl hlv
                      · right
                        refine ⟨?_, by rw [← hb]; exact hacc3⟩
                        rw [← hi2]
                        exact trDone_of_eq (a := { s4 with pendingStatus := Status.ended })
                          rfl rfl hqi4.symm rfl hdn
                | osc =>
                  simp only at h
                  rw [if_pos (show ¬ (MState.ground false = MState.ground true) from by
                    simp)] at h
                  split at h
                  case _ => simp at h
                  case _ acc2 n2 s4 full2 hd2 =>
                    have hfin := trStep_end_finish hNl hd2 rfl (Or.inl (Or.inl (And.intro (by
                                          intro hc
                                          rcases List.append_eq_nil.mp hc with ⟨_, h3⟩
                                          cases h3) (getLast_concat _ _)))) rfl hend2
                      (hEndF rfl).2 (hEndF rfl).1
                    cases hqi4 : s4.queueIter with
                    | none =>
                      rw [hqi4] at h
                      simp only [Option.isNone_none, if_true] at h
                      simp only [Prod.mk.injEq, Except.ok.injEq] at h
                      obtain ⟨⟨hb, hs⟩, _⟩ := h
                      left
                      exact ⟨hs.symm, by rw [← hb]; exact hfin.1 hqi4⟩
                    | some it =>
                      rw [hqi4] at h
                      simp only [Option.isNone_some, Bool.false_eq_true, if_false] at h
                      simp only [Prod.mk.injEq, Except.ok.injEq] at h
                      obtain ⟨⟨hb, hs⟩, hi2⟩ := h
                      right
                      refine ⟨hs.symm, ?_⟩
                      rcases hfin.2 it hqi4 with hlv | ⟨hdn, hacc3⟩
                      · left
                        rw [← hi2]
                        exact trLive_of_eq (a := { s4 with pendingStatus := Status.ended })
                          rfl rfl hqi4.symm rfl hlv
                      · right
                        refine ⟨?_, by rw [← hb]; exact hacc3⟩
                        rw [← hi2]
                        exact trDone_of_eq (a := { s4 with pendingStatus := Status.ended })
                          rfl rfl hqi4.symm rfl hdn
                | linux =>
                  simp only at h
                  rw [if_pos (show ¬ (MState.ground false = MState.ground true) from by
                    simp)] at h
                  split at h
                  case _ => simp at h
                  case _ acc2 n2 s4 full2 hd2 =>
                    have hfin := trStep_end_finish hNl hd2 rfl (Or.inl (Or.inl (And.intro (by
                                          intro hc
                                          rcases List.append_eq_nil.mp hc with ⟨_, h3⟩
                                          cases h3) (getLast_concat _ _)))) rfl hend2
                      (hEndF rfl).2 (hEndF rfl).1
                    cases hqi4 : s4.queueIter with
                    | none =>
                      rw [hqi4] at h
                      simp only [Option.isNone_none, if_true] at h
                      simp only [Prod.mk.injEq, Except.ok.injEq] at h
                      obtain ⟨⟨hb, hs⟩, _⟩ := h
                      left
                      exact ⟨hs.symm, by rw [← hb]; exact hfin.1 hqi4⟩
                    | some it =>
                      rw [hqi4] at h
                      simp only [Option.isNone_some, Bool.false_eq_true, if_false] at h
                      simp only [Prod.mk.injEq, Except.ok.injEq] at h
                      obtain ⟨⟨hb, hs⟩, hi2⟩ := h
                      right
                      refine ⟨hs.symm, ?_⟩
                      rcases hfin.2 it hqi4 with hlv | ⟨hdn, hacc3⟩
                      · left
                        rw [← hi2]
                        exact trLive_of_eq (a := { s4 with pendingStatus := Status.ended })
                          rfl rfl hqi4.symm rfl hlv
                      · right
                        refine ⟨?_, by rw [← hb]; exact hacc3⟩
                        rw [← hi2]
                        exact trDone_of_eq (a := { s4 with pendingStatus := Status.ended })
                          rfl rfl hqi4.symm rfl hdn

theorem textReadAll_nl {P : TextPipe}
    (hNl : ∀ l, P.readPipe (l ++ ['\n']) = P.readPipe l ++ ['\n']) (bufLen : Nat) :
    ∀ (fuel : Nat) (s : TextReaderState SliceReaderState) (out : List Char),
      textReadAll sliceModel P fuel s bufLen = some out →
      (trLive s → out.getLast? = some '\n') ∧ (trDone s → out = []) := by
  intro fuel
  induction fuel with
  | zero =>
    intro s out h
    cases h
  | succ fuel ih =>
    intro s out h
    simp only [textReadAll] at h
    cases hc : textReadOutcome sliceModel P s bufLen with
    | mk res s2 =>
      rw [hc] at h
      cases res with
      | error e => simp at h
      | ok pr =>
        obtain ⟨chunk, st0⟩ := pr
        simp only at h
        by_cases hE : st0.isEnd = true
        · rw [if_pos hE] at h
          simp only [Option.some.injEq] at h
          subst h
          constructor
          · intro hlive
            rcases trStep_live hNl hlive hc with ⟨_, hlast⟩ | ⟨hrd, _⟩
            · exact hlast
            · rw [hrd] at hE
              exact absurd hE (by decide)
          · intro hdone
            rcases trStep_done hdone hc with ⟨hch, _⟩
            exact hch
        · rw [if_neg hE] at h
          cases hr : textReadAll sliceModel P fuel s2 bufLen with
          | none => rw [hr] at h; cases h
          | some rest =>
            rw [hr] at h
            simp only [Option.some.injEq] at h
            subst h
            have ihr := ih s2 rest hr
            constructor
            · intro hlive
              rcases trStep_live hNl hlive hc with ⟨hed, _⟩ | ⟨_, hlv | ⟨hdn, hlast⟩⟩
              · rw [hed] at hE
                exact absurd rfl hE
              · exact getLast_append_right _ (ihr.1 hlv)
              · rw [ihr.2 hdn, List.append_nil]
                exact hlast
            · intro hdone
              rcases trStep_done hdone hc with ⟨hch, hEnd | ⟨_, hdn⟩⟩
              · rw [hEnd] at hE
                exact absurd rfl hE
              · rw [hch, ihr.2 hdn, List.append_nil]

/-- Claim C5: for every non-empty input byte sequence, a full read of the
stream through `TextReader::read_outcome` (repeated calls until a call
reports `End`) produces output whose concatenated bytes end with the byte
`'\n'`.  The NFC/Stream-Safe pipeline is a parameter of the embedding; it
is assumed only to map a sequence ending in `'\n'` to its own image
followed by `'\n'` (the newline passes through the normalizer unchanged,
as `'\n'` is a normalization starter that composes with nothing). -/
theorem claim_C5 (P : TextPipe) (input : List Nat) (fuel bufLen : Nat) (out : List Char)
    (hNl : ∀ l, P.readPipe (l ++ ['\n']) = P.readPipe l ++ ['\n'])
    (hne : input ≠ [])
    (hrun : textReadAll sliceModel P fuel (textReaderInit ⟨input, false⟩) bufLen =
      some out) :
    out ≠ [] ∧ (utf8EncodeList out).getLast? = some 10 := by
  have hlive : trLive (textReaderInit ⟨input, false⟩) := by
    unfold trLive textReaderInit
    exact ⟨rfl, by simp, Or.inl hne⟩
  have hmain := (textReadAll_nl hNl bufLen fuel _ out hrun).1 hlive
  exact ⟨getLast_some_ne_nil hmain, utf8EncodeList_last_nl hmain⟩

/-- Witness for C5: the one-byte input `"h"` over a slice source with the
identity pipeline and a 128-byte caller buffer reads as `"h\n"`. -/
theorem claim_C5_witness :
    (['h', '\n'] : List Char) ≠ [] ∧
      (utf8EncodeList ['h', '\n']).getLast? = some 10 :=
  claim_C5 idPipe [0x68] 3 128 ['h', '\n'] (fun l => rfl) (by decide) (by decide)
